import Mathlib

/-!
# Verification of the MON linter / formatter engine

A shallow embedding, in Lean 4, of the analysis and formatting engine of the
MON command-line tool (the `linter` and `formatter` modules of the Rust
crate).  Rust functions are translated one-to-one into Lean functions over an
embedding of the AST (`MonValue` / `Member`), of the diagnostic model, and of
the configuration records.  Machine integers (`usize`, `u32`) are modelled as
`Nat`; Rust `String::len` (a UTF-8 byte count) is modelled with
`String.utf8ByteSize`; fallible code (a Rust panic) is modelled with `Option`.

Conventions:
* Source span fields (`pos_start` / `pos_end` on values, the span slot of
  `TypeSpec`) are carried by the Rust AST but are never read by any of the
  analysis or formatting functions embedded here, so they are omitted from
  the embedded AST.
* Rust's `HashSet` / `HashMap` iterate in an unspecified, seed-dependent
  order.  Code that iterates over such a set is embedded as a function of an
  explicit enumeration-order parameter, constrained to be a duplicate-free
  enumeration of the set.
* Literal brace characters inside strings are written with the escapes
  `\x7b` (left brace) and `\x7d` (right brace); literal apostrophes are
  written `\x27`.
-/

namespace MON

/-! ## Diagnostics (src/linter/diagnostic.rs, src/linter/mod.rs) -/

/-- `DiagnosticSeverity` from src/linter/diagnostic.rs. -/
inductive DiagnosticSeverity : Type where
  | Error
  | Warning
  | Info
deriving DecidableEq, Repr

/-- `DiagnosticCode` from src/linter/diagnostic.rs. -/
inductive DiagnosticCode : Type where
  | MaxNestingDepth      -- LINT1001
  | MaxObjectMembers     -- LINT1002
  | MaxArrayItems        -- LINT1003
  | UnusedAnchor         -- LINT2001
  | DuplicateKey         -- LINT2002
  | ExcessiveSpreads     -- LINT2003
  | MagicNumber          -- LINT2004
  | MissingTypeValidation -- LINT3001
  | InconsistentNaming   -- LINT3002
  | EmptyObject          -- LINT3003
  | DeepImportChain      -- LINT4001
  | CircularDependency   -- LINT4002
  | UnusedImport         -- LINT4003
deriving DecidableEq, Repr

/-- `DiagnosticCode::code` from src/linter/diagnostic.rs. -/
def DiagnosticCode.code : DiagnosticCode → String
  | .MaxNestingDepth => "LINT1001"
  | .MaxObjectMembers => "LINT1002"
  | .MaxArrayItems => "LINT1003"
  | .UnusedAnchor => "LINT2001"
  | .DuplicateKey => "LINT2002"
  | .ExcessiveSpreads => "LINT2003"
  | .MagicNumber => "LINT2004"
  | .MissingTypeValidation => "LINT3001"
  | .InconsistentNaming => "LINT3002"
  | .EmptyObject => "LINT3003"
  | .DeepImportChain => "LINT4001"
  | .CircularDependency => "LINT4002"
  | .UnusedImport => "LINT4003"

/-- `DiagnosticCode::severity` from src/linter/diagnostic.rs. -/
def DiagnosticCode.severity : DiagnosticCode → DiagnosticSeverity
  | .DuplicateKey => .Error
  | .CircularDependency => .Error
  | .MaxNestingDepth => .Warning
  | .MaxObjectMembers => .Warning
  | .MaxArrayItems => .Warning
  | .UnusedAnchor => .Warning
  | .ExcessiveSpreads => .Warning
  | .DeepImportChain => .Warning
  | .UnusedImport => .Warning
  | .MagicNumber => .Info
  | .MissingTypeValidation => .Info
  | .InconsistentNaming => .Info
  | .EmptyObject => .Info

/-- The Rust `Debug` rendering of a `DiagnosticCode` variant
(`format!("{:?}", code)` in `LintResult::add_diagnostic`). -/
def DiagnosticCode.debugName : DiagnosticCode → String
  | .MaxNestingDepth => "MaxNestingDepth"
  | .MaxObjectMembers => "MaxObjectMembers"
  | .MaxArrayItems => "MaxArrayItems"
  | .UnusedAnchor => "UnusedAnchor"
  | .DuplicateKey => "DuplicateKey"
  | .ExcessiveSpreads => "ExcessiveSpreads"
  | .MagicNumber => "MagicNumber"
  | .MissingTypeValidation => "MissingTypeValidation"
  | .InconsistentNaming => "InconsistentNaming"
  | .EmptyObject => "EmptyObject"
  | .DeepImportChain => "DeepImportChain"
  | .CircularDependency => "CircularDependency"
  | .UnusedImport => "UnusedImport"

/-- `Position` from src/linter/position.rs: zero-based line and zero-based
UTF-16 column (LSP convention). -/
structure Position : Type where
  line : Nat
  character : Nat
deriving DecidableEq, Repr

/-- `Range` from src/linter/position.rs: start inclusive, end exclusive. -/
structure Range : Type where
  start : Position
  stop : Position
deriving DecidableEq, Repr

/-- `DiagnosticTag` from src/linter/position.rs. -/
inductive DiagnosticTag : Type where
  | Unnecessary
  | Deprecated
deriving DecidableEq, Repr

/-- `Location` from src/linter/position.rs. -/
structure Location : Type where
  uri : String
  range : Range
deriving DecidableEq, Repr

/-- `RelatedInformation` from src/linter/position.rs. -/
structure RelatedInformation : Type where
  location : Location
  message : String
deriving DecidableEq, Repr

/-- `Diagnostic` from src/linter/mod.rs. -/
structure Diagnostic : Type where
  code : DiagnosticCode
  code_name : String
  severity : DiagnosticSeverity
  message : String
  range : Option Range
  related_information : List RelatedInformation
  tags : List DiagnosticTag
  location : Option String
deriving DecidableEq, Repr

/-- `LintResult::add_diagnostic` from src/linter/mod.rs, as the diagnostic
it pushes (the result list is modelled as the ordered list of pushed
diagnostics).  Severity and `code_name` are derived from the code. -/
def add_diagnostic (code : DiagnosticCode) (message : String)
    (location : Option String) : Diagnostic :=
  { code := code
    code_name := code.debugName
    severity := code.severity
    message := message
    range := none
    related_information := []
    tags := []
    location := location }

/-! ## The AST (mon_core::ast, as consumed by this crate)

`MonValue` carries an optional anchor name and a kind; an object member is a
pair, a spread, an import or a type definition.  Field default values make
`TypeDefinition` mutually recursive with `MonValue`. -/

/-- `TypeSpec` from mon_core::ast (the span slot of each variant is never
read by the embedded functions and is omitted). -/
inductive TypeSpec : Type where
  | Simple (name : String)
  | Collection (specs : List TypeSpec)
  | Spread (inner : TypeSpec)

/-- `EnumDef` from mon_core::ast: ordered variant names. -/
structure EnumDef : Type where
  variants : List String
deriving DecidableEq, Repr

mutual
/-- `MonValue` from mon_core::ast: an optional anchor name plus a kind
(source span offsets omitted, see the module header). -/
inductive MonValue : Type where
  | mk (anchor : Option String) (kind : MonValueKind)

/-- `MonValueKind` from mon_core::ast.  The Rust `Number` payload is an
`f64`; this embedding covers the integer-valued numbers of magnitude below
`1e15`, carried as `Int`, for which the formatter prints the `i64` decimal
form (`format!("{}", *n as i64)`).  None of the claims proved here depends
on non-integral number rendering. -/
inductive MonValueKind : Type where
  | Null
  | Boolean (b : Bool)
  | Number (n : Int)
  | Str (s : String)
  | Array (items : List MonValue)
  | Object (members : List Member)
  | Alias (name : String)
  | EnumValue (enum_name : String) (variant_name : String)
  | ArraySpread (name : String)

/-- `Member` from mon_core::ast.  `Member::Pair(MonPair { key, value })` is
flattened into the two fields of the `Pair` constructor.  The
`ImportStatement` payload of `Member::Import` is never read by any embedded
function (the formatter skips such members), so only the path is kept. -/
inductive Member : Type where
  | Pair (key : String) (value : MonValue)
  | Spread (name : String)
  | Import (path : String)
  | TypeDefinition (td : TypeDefinition)

/-- `FieldDef` from mon_core::ast: a struct field. -/
inductive FieldDef : Type where
  | mk (name : String) (type_spec : TypeSpec) (default_value : Option MonValue)

/-- `StructDef` from mon_core::ast: ordered fields. -/
inductive StructDef : Type where
  | mk (fields : List FieldDef)

/-- `TypeDef` from mon_core::ast: struct or enum body. -/
inductive TypeDef : Type where
  | Struct (s : StructDef)
  | Enum (e : EnumDef)

/-- `TypeDefinition` from mon_core::ast: a named struct/enum declaration. -/
inductive TypeDefinition : Type where
  | mk (name : String) (def_type : TypeDef)
end

/-- The `anchor` field of a `MonValue`. -/
def MonValue.anchor : MonValue → Option String
  | .mk a _ => a

/-- The `kind` field of a `MonValue`. -/
def MonValue.kind : MonValue → MonValueKind
  | .mk _ k => k

/-- The `name` field of a `TypeDefinition`. -/
def TypeDefinition.name : TypeDefinition → String
  | .mk n _ => n

/-- The `def_type` field of a `TypeDefinition`. -/
def TypeDefinition.def_type : TypeDefinition → TypeDef
  | .mk _ d => d

/-- The `name` field of a `FieldDef`. -/
def FieldDef.name : FieldDef → String
  | .mk n _ _ => n

/-- The `type_spec` field of a `FieldDef`. -/
def FieldDef.type_spec : FieldDef → TypeSpec
  | .mk _ t _ => t

/-- The `default_value` field of a `FieldDef`. -/
def FieldDef.default_value : FieldDef → Option MonValue
  | .mk _ _ d => d

/-- The `fields` field of a `StructDef`. -/
def StructDef.fields : StructDef → List FieldDef
  | .mk fs => fs

/-! ## Character and string helpers shared by the embedded functions -/

/-- `" ".repeat(n)` from Rust: a string of `n` spaces. -/
def spaces (n : Nat) : String :=
  String.mk (List.replicate n ' ')

/-- Rust `char::is_uppercase`.  The source uses the full Unicode uppercase
property; this embedding covers the ASCII range, which is the only range the
claims below apply it to. -/
def rustIsUppercase (c : Char) : Bool :=
  'A' ≤ c && c ≤ 'Z'

/-- Rust `char::is_numeric` (Unicode in the source; ASCII digits here, the
only range the claims below apply it to). -/
def rustIsNumeric (c : Char) : Bool :=
  c.isDigit

/-- Rust `char::is_alphanumeric` (Unicode in the source; ASCII letters and
digits here, the only range the claims below apply it to). -/
def rustIsAlphanumeric (c : Char) : Bool :=
  c.isAlpha || c.isDigit

/-- Rust `str::len`: the UTF-8 byte length. -/
def rustStrLen (s : String) : Nat :=
  s.utf8ByteSize

/-- Rust `str::contains(char)`, over the character list of the string (kept
in the kernel-reducible list form so that concrete instances evaluate). -/
def rustContains (s : String) (c : Char) : Bool :=
  s.data.contains c

/-- Rust `str.chars().any(p)`, over the character list of the string. -/
def rustAnyChar (s : String) (p : Char → Bool) : Bool :=
  s.data.any p

/-! ## src/formatter/advanced.rs: `align_comment_at` -/

/-- `align_comment_at` from src/formatter/advanced.rs.

The source computes `let padding = column - content_len;` on `usize` and
then evaluates `" ".repeat(padding - 2)`.  When `padding < 2` the inner
subtraction underflows, which is a panic (directly in a debug build; via a
capacity overflow in `String::repeat` in a release build).  The panic is
modelled as `none`. -/
def align_comment_at (content comment : String) (column : Nat) : Option String :=
  let content_len := rustStrLen content
  if content_len ≥ column then
    -- Content too long, add minimal spacing
    some (content ++ "  " ++ comment)
  else
    -- Pad to alignment column
    let padding := column - content_len
    if padding < 2 then
      none
    else
      some (content ++ "  " ++ (spaces (padding - 2) ++ comment))

/-! ## src/linter/smells.rs: inconsistent naming -/

/-- The message of `SmellDetector::detect_inconsistent_naming`
(`format!("Object has mixed naming styles ({} snake_case, {} camelCase)", ...)`). -/
def naming_message (snake_case_count camel_case_count : Nat) : String :=
  "Object has mixed naming styles (" ++ toString snake_case_count ++
    " snake_case, " ++ toString camel_case_count ++ " camelCase)"

mutual
/-- `SmellDetector::detect_inconsistent_naming` from src/linter/smells.rs,
as the ordered list of diagnostics it appends to the result.  The member
loop (counter updates interleaved with recursion into pair values) is
`naming_scan`; after the loop, one diagnostic is pushed when both counters
are positive. -/
def detect_inconsistent_naming (v : MonValue) : List Diagnostic :=
  match v with
  | .mk _ (.Object members) =>
      let s := naming_scan members
      s.2.2 ++
        (if s.1 > 0 && s.2.1 > 0 then
          [add_diagnostic .InconsistentNaming (naming_message s.1 s.2.1) none]
        else [])
  | _ => []
termination_by structural v

/-- The member loop of `detect_inconsistent_naming`: returns
(snake_case_count, camel_case_count, child diagnostics in emission order).
A key containing an underscore increments the snake counter; otherwise
a key containing an uppercase character increments the camel counter
(the source's `if ... else if ...`). -/
def naming_scan (members : List Member) : Nat × Nat × List Diagnostic :=
  match members with
  | [] => (0, 0, [])
  | .Pair key value :: rest =>
      let tail := naming_scan rest
      let here : Nat × Nat :=
        if rustContains key '_' then (1, 0)
        else if rustAnyChar key rustIsUppercase then (0, 1)
        else (0, 0)
      (here.1 + tail.1, here.2 + tail.2.1,
        detect_inconsistent_naming value ++ tail.2.2)
  | _ :: rest => naming_scan rest
termination_by structural members
end

/-- Spec-side counter: the number of direct pair keys of a member list that
contain an underscore. -/
def snake_signal (members : List Member) : Nat :=
  members.countP fun m =>
    match m with
    | .Pair key _ => rustContains key '_'
    | _ => false

/-- Spec-side counter (as forced by the counterexample below): the number of
direct pair keys without an underscore that contain an uppercase letter. -/
def camel_signal (members : List Member) : Nat :=
  members.countP fun m =>
    match m with
    | .Pair key _ => !rustContains key '_' && rustAnyChar key rustIsUppercase
    | _ => false

/-- Spec-side description of the recursion of
`detect_inconsistent_naming`: the concatenation, in member order, of the
diagnostics of every direct pair value. -/
def naming_child_diags (members : List Member) : List Diagnostic :=
  (members.map fun m =>
    match m with
    | .Pair _ value => detect_inconsistent_naming value
    | _ => []).flatten

/-- C3 counterexample: the claim says a key matching both signals (here
`Foo_Bar`: it contains an underscore and an uppercase letter) increments
both counters, so an object whose single key is `Foo_Bar` would have both
counts non-zero and would emit one diagnostic.  The code classifies by
`if contains('_') ... else if uppercase ...`, counts (1, 0), and emits
nothing. -/
theorem naming_dual_signal_key_emits_nothing :
    detect_inconsistent_naming
        (.mk none (.Object [.Pair "Foo_Bar" (.mk none .Null)])) = [] ∧
      rustContains "Foo_Bar" '_' = true ∧
      rustAnyChar "Foo_Bar" rustIsUppercase = true := by
  refine ⟨by decide, by decide, by decide⟩

/-- C3 (amended): keys are classified by a first-match rule — a key
containing an underscore increments only the snake counter, and only a key
without an underscore but with an uppercase letter increments the camel
counter; child diagnostics are emitted in member order, followed by exactly
one mixed-naming diagnostic reporting both counts iff both counters are
non-zero. -/
theorem naming_counts_and_emission (a : Option String) (members : List Member) :
    detect_inconsistent_naming (.mk a (.Object members)) =
      naming_child_diags members ++
        (if 0 < snake_signal members ∧ 0 < camel_signal members then
          [add_diagnostic .InconsistentNaming
            (naming_message (snake_signal members) (camel_signal members)) none]
        else []) := by
  have hscan : ∀ ms : List Member,
      naming_scan ms = (snake_signal ms, camel_signal ms, naming_child_diags ms) := by
    intro ms
    induction ms with
    | nil => rfl
    | cons m rest ih =>
        cases m with
        | Pair key value =>
            simp only [naming_scan, ih, snake_signal, camel_signal,
              naming_child_diags, List.countP_cons, List.map_cons, List.flatten_cons]
            by_cases h1 : rustContains key '_' = true
            · simp [h1, Nat.add_comm]
            · by_cases h2 : rustAnyChar key rustIsUppercase = true
              · simp [h1, h2, Nat.add_comm]
              · simp [h1, h2]
        | Spread name =>
            simp [naming_scan, ih, snake_signal, camel_signal,
              naming_child_diags, List.countP_cons]
        | Import path =>
            simp [naming_scan, ih, snake_signal, camel_signal,
              naming_child_diags, List.countP_cons]
        | TypeDefinition td =>
            simp [naming_scan, ih, snake_signal, camel_signal,
              naming_child_diags, List.countP_cons]
  simp only [detect_inconsistent_naming, hscan]
  by_cases hs : 0 < snake_signal members
  · by_cases hc : 0 < camel_signal members
    · have hb : (snake_signal members > 0 && camel_signal members > 0) = true := by
        simp [hs, hc]
      simp [hb, hs, hc]
    · have hb : (snake_signal members > 0 && camel_signal members > 0) = false := by
        simp [hc]
      rw [if_neg (fun h : 0 < snake_signal members ∧ 0 < camel_signal members => hc h.2)]
      simp [hb]
  · have hb : (snake_signal members > 0 && camel_signal members > 0) = false := by
      simp [hs]
    rw [if_neg (fun h : 0 < snake_signal members ∧ 0 < camel_signal members => hs h.1)]
    simp [hb]

/-! ## src/linter/smells.rs: duplicate keys -/

/-- The message of `SmellDetector::detect_duplicate_keys`
(`format!("Duplicate key '{}' in object", pair.key)`). -/
def dup_message (key : String) : String :=
  "Duplicate key \x27" ++ key ++ "\x27 in object"

/-- The LINT2002 diagnostic emitted for one repeat occurrence of `key`. -/
def dup_diag (key : String) : Diagnostic :=
  add_diagnostic .DuplicateKey (dup_message key) none

mutual
/-- `SmellDetector::detect_duplicate_keys` from src/linter/smells.rs, as the
ordered list of diagnostics it appends.  For an object, the member loop
(`dup_scan`) threads the `seen_keys` map (modelled as the list of keys seen
so far); for an array it recurses into each item. -/
def detect_duplicate_keys (v : MonValue) : List Diagnostic :=
  match v with
  | .mk _ (.Object members) => dup_scan [] members
  | .mk _ (.Array items) => dup_items items
  | _ => []
termination_by structural v

/-- The member loop of `detect_duplicate_keys`: `seen_keys.insert(key, ())`
returns `Some` exactly when the key was already present, in which case one
diagnostic is emitted; the loop then recurses into the pair's value. -/
def dup_scan (seen : List String) (members : List Member) : List Diagnostic :=
  match members with
  | [] => []
  | .Pair key value :: rest =>
      (if seen.contains key then [dup_diag key] else []) ++
        detect_duplicate_keys value ++ dup_scan (key :: seen) rest
  | _ :: rest => dup_scan seen rest
termination_by structural members

/-- The array branch of `detect_duplicate_keys`. -/
def dup_items (items : List MonValue) : List Diagnostic :=
  match items with
  | [] => []
  | item :: rest => detect_duplicate_keys item ++ dup_items rest
termination_by structural items
end

/-- The number of direct `Pair` members of `members` whose key is `key`. -/
def pair_key_count (key : String) (members : List Member) : Nat :=
  members.countP fun m =>
    match m with
    | .Pair k _ => k == key
    | _ => false

/-- The duplicate-key diagnostics for `key` reported from inside the direct
pair values of `members` (the recursion of the check). -/
def nested_dup_count (key : String) (members : List Member) : Nat :=
  (members.map fun m =>
    match m with
    | .Pair _ value => (detect_duplicate_keys value).count (dup_diag key)
    | _ => 0).sum

theorem dup_message_injective {x y : String} (h : dup_message x = dup_message y) :
    x = y := by
  have hd : ("Duplicate key \x27".data ++ x.data) ++ "\x27 in object".data =
      ("Duplicate key \x27".data ++ y.data) ++ "\x27 in object".data := by
    have := congrArg String.data h
    simpa [dup_message, String.data_append, List.append_assoc] using this
  have hx : "Duplicate key \x27".data ++ x.data =
      "Duplicate key \x27".data ++ y.data := List.append_cancel_right hd
  exact String.ext (List.append_cancel_left hx)

theorem dup_diag_beq (x y : String) :
    (dup_diag x == dup_diag y) = (x == y) := by
  by_cases h : x = y
  · simp [h]
  · have : dup_diag x ≠ dup_diag y := by
      intro hd
      exact h (dup_message_injective (congrArg Diagnostic.message hd))
    simp [h, this]

theorem dup_scan_count (key : String) : ∀ (members : List Member) (seen : List String),
    (dup_scan seen members).count (dup_diag key) =
      (if key ∈ seen then pair_key_count key members
       else pair_key_count key members - 1) +
        nested_dup_count key members := by
  intro members
  induction members with
  | nil => intro seen; simp [dup_scan, pair_key_count, nested_dup_count]
  | cons m rest ih =>
      intro seen
      cases m with
      | Pair k value =>
          have hcount : pair_key_count key (.Pair k value :: rest) =
              (if k = key then 1 else 0) + pair_key_count key rest := by
            simp only [pair_key_count, List.countP_cons]
            by_cases h : k = key <;> simp [h, Nat.add_comm]
          have hnest : nested_dup_count key (.Pair k value :: rest) =
              (detect_duplicate_keys value).count (dup_diag key) +
                nested_dup_count key rest := by
            simp [nested_dup_count]
          have hsingle : ∀ s : String,
              List.count (dup_diag key) [dup_diag s] = if key = s then 1 else 0 := by
            intro s
            by_cases h : key = s
            · subst h; simp
            · have hne : dup_diag key ≠ dup_diag s := fun hd =>
                h (dup_message_injective (congrArg Diagnostic.message hd))
              simp [List.count_cons, hne, h]
          simp only [dup_scan, List.count_append, ih (k :: seen), hcount, hnest]
          by_cases hk : k = key
          · subst hk
            by_cases hseen : k ∈ seen
            · simp [hseen, hsingle]
              all_goals omega
            · simp [hseen, hsingle]
              all_goals omega
          · have hmemc : (key ∈ k :: seen) ↔ key ∈ seen := by
              simp [List.mem_cons, Ne.symm hk]
            by_cases hseen : k ∈ seen <;> by_cases hs2 : key ∈ seen <;>
              simp [hseen, hs2, hsingle, hmemc, Ne.symm hk, hk] <;>
              omega
      | Spread name =>
          simp [dup_scan, ih, pair_key_count, nested_dup_count, List.countP_cons]
      | Import path =>
          simp [dup_scan, ih, pair_key_count, nested_dup_count, List.countP_cons]
      | TypeDefinition td =>
          simp [dup_scan, ih, pair_key_count, nested_dup_count, List.countP_cons]

/-- C5: for an object whose direct pair members carry a key `m ≥ 2` times,
the duplicate-key check emits exactly `m − 1` LINT2002 diagnostics for that
key at the object itself (the first occurrence is never flagged), plus the
diagnostics reported by the recursion into the direct pair values
(duplicates at any depth). -/
theorem duplicate_key_count (a : Option String) (members : List Member)
    (key : String) (m : Nat) (hm : pair_key_count key members = m) (h2 : 2 ≤ m) :
    (detect_duplicate_keys (.mk a (.Object members))).count (dup_diag key) =
      (m - 1) + nested_dup_count key members := by
  have h := dup_scan_count key members []
  simpa [detect_duplicate_keys, hm] using h

/-- C5 witness: the key `a` occurs three times, two LINT2002 diagnostics are
counted, and none arrive from the recursion. -/
theorem duplicate_key_count_witness :
    pair_key_count "a"
        [.Pair "a" (.mk none .Null), .Pair "b" (.mk none .Null),
          .Pair "a" (.mk none .Null), .Pair "a" (.mk none .Null)] = 3 ∧
      (detect_duplicate_keys (.mk none (.Object
          [.Pair "a" (.mk none .Null), .Pair "b" (.mk none .Null),
            .Pair "a" (.mk none .Null), .Pair "a" (.mk none .Null)]))).count
          (dup_diag "a") =
        (3 - 1) + nested_dup_count "a"
          [.Pair "a" (.mk none .Null), .Pair "b" (.mk none .Null),
            .Pair "a" (.mk none .Null), .Pair "a" (.mk none .Null)] :=
  ⟨by decide,
    duplicate_key_count none
      [.Pair "a" (.mk none .Null), .Pair "b" (.mk none .Null),
        .Pair "a" (.mk none .Null), .Pair "a" (.mk none .Null)]
      "a" 3 (by decide) (by decide)⟩

/-! ## src/linter/mod.rs: `LintConfig`; src/linter/complexity.rs -/

/-- `LintConfig` from src/linter/mod.rs. -/
structure LintConfig : Type where
  max_nesting_depth : Nat
  max_object_members : Nat
  max_array_items : Nat
  max_import_chain_depth : Nat
  warn_unused_anchors : Bool
  warn_magic_numbers : Bool
  suggest_type_validation : Bool
deriving DecidableEq, Repr

/-- `LintConfig::default` from src/linter/mod.rs. -/
def LintConfig.default : LintConfig :=
  { max_nesting_depth := 4
    max_object_members := 20
    max_array_items := 100
    max_import_chain_depth := 2
    warn_unused_anchors := true
    warn_magic_numbers := false
    suggest_type_validation := false }

/-- `matches!(m, Member::TypeDefinition(_))`. -/
def Member.isTypeDefinition : Member → Bool
  | .TypeDefinition _ => true
  | _ => false

/-- The severe LINT1001 message
(`"Maximum nesting depth of {} exceeds limit of {} by more than 2 levels"`). -/
def depth_message_severe (max_depth limit : Nat) : String :=
  "Maximum nesting depth of " ++ toString max_depth ++ " exceeds limit of " ++
    toString limit ++ " by more than 2 levels"

/-- The marginal LINT1001 message
(`"Maximum nesting depth of {} exceeds recommended limit of {}"`). -/
def depth_message_marginal (max_depth limit : Nat) : String :=
  "Maximum nesting depth of " ++ toString max_depth ++
    " exceeds recommended limit of " ++ toString limit

/-- The LINT1002 message of `ComplexityAnalyzer::analyze_sizes`. -/
def object_size_message (depth count limit : Nat) : String :=
  "Object at depth " ++ toString depth ++ " has " ++ toString count ++
    " members, exceeds recommended limit of " ++ toString limit

/-- The LINT1003 message of `ComplexityAnalyzer::analyze_sizes`. -/
def array_size_message (depth count limit : Nat) : String :=
  "Array at depth " ++ toString depth ++ " has " ++ toString count ++
    " items, exceeds recommended limit of " ++ toString limit

mutual
/-- `ComplexityAnalyzer::calculate_max_depth` from src/linter/complexity.rs.
The member/item loop (`let mut max = current_depth; ... max = max.max(..)`)
is rendered as structural recursion; `Nat.max` is associative and
commutative, so the folded result is the loop's. -/
def calculate_max_depth (v : MonValue) (current_depth : Nat) : Nat :=
  match v with
  | .mk _ (.Object members) => depth_of_members members current_depth
  | .mk _ (.Array items) => depth_of_items items current_depth
  | _ => current_depth
termination_by structural v

/-- The `Object` loop of `calculate_max_depth`: only `Pair` members recurse
(each pair value at `current_depth + 1`); `TypeDefinition`, `Spread` and
`Import` members contribute nothing. -/
def depth_of_members (members : List Member) (current_depth : Nat) : Nat :=
  match members with
  | [] => current_depth
  | .Pair _ value :: rest =>
      Nat.max (calculate_max_depth value (current_depth + 1))
        (depth_of_members rest current_depth)
  | _ :: rest => depth_of_members rest current_depth
termination_by structural members

/-- The `Array` loop of `calculate_max_depth`. -/
def depth_of_items (items : List MonValue) (current_depth : Nat) : Nat :=
  match items with
  | [] => current_depth
  | item :: rest =>
      Nat.max (calculate_max_depth item (current_depth + 1))
        (depth_of_items rest current_depth)
termination_by structural items
end

mutual
/-- `ComplexityAnalyzer::analyze_sizes` from src/linter/complexity.rs, as
the ordered list of diagnostics it appends.  Object member counts exclude
`TypeDefinition` members. -/
def analyze_sizes (config : LintConfig) (v : MonValue) (depth : Nat) :
    List Diagnostic :=
  match v with
  | .mk _ (.Object members) =>
      let regular_members := members.filter fun m => !m.isTypeDefinition
      (if regular_members.length > config.max_object_members then
        [add_diagnostic .MaxObjectMembers
          (object_size_message depth regular_members.length
            config.max_object_members) none]
      else []) ++ sizes_of_members config members depth
  | .mk _ (.Array items) =>
      (if items.length > config.max_array_items then
        [add_diagnostic .MaxArrayItems
          (array_size_message depth items.length config.max_array_items) none]
      else []) ++ sizes_of_items config items depth
  | _ => []
termination_by structural v

/-- The object-member recursion of `analyze_sizes` (pair values only). -/
def sizes_of_members (config : LintConfig) (members : List Member)
    (depth : Nat) : List Diagnostic :=
  match members with
  | [] => []
  | .Pair _ value :: rest =>
      analyze_sizes config value (depth + 1) ++ sizes_of_members config rest depth
  | _ :: rest => sizes_of_members config rest depth
termination_by structural members

/-- The array-item recursion of `analyze_sizes`. -/
def sizes_of_items (config : LintConfig) (items : List MonValue)
    (depth : Nat) : List Diagnostic :=
  match items with
  | [] => []
  | item :: rest =>
      analyze_sizes config item (depth + 1) ++ sizes_of_items config rest depth
termination_by structural items
end

/-- `ComplexityAnalyzer::analyze` from src/linter/complexity.rs: the global
maximum-depth check (one diagnostic, severe or marginal wording) followed by
the per-node size checks. -/
def complexity_analyze (config : LintConfig) (root : MonValue) : List Diagnostic :=
  let max_depth := calculate_max_depth root 0
  (if max_depth > config.max_nesting_depth then
    (if max_depth > config.max_nesting_depth + 2 then
      [add_diagnostic .MaxNestingDepth
        (depth_message_severe max_depth config.max_nesting_depth) none]
    else
      [add_diagnostic .MaxNestingDepth
        (depth_message_marginal max_depth config.max_nesting_depth) none])
  else []) ++ analyze_sizes config root 0

mutual
/-- `analyze_sizes` only ever emits LINT1002/LINT1003 diagnostics; none of
them carries the LINT1001 code. -/
theorem analyze_sizes_no_depth_code (config : LintConfig) (v : MonValue)
    (depth : Nat) :
    (analyze_sizes config v depth).filter
      (fun d => d.code == DiagnosticCode.MaxNestingDepth) = [] := by
  match v with
  | .mk a (.Object members) =>
      have h := sizes_of_members_no_depth_code config members depth
      simp only [analyze_sizes, List.filter_append, h, List.append_nil]
      split <;> simp [add_diagnostic]
  | .mk a (.Array items) =>
      have h := sizes_of_items_no_depth_code config items depth
      simp only [analyze_sizes, List.filter_append, h, List.append_nil]
      split <;> simp [add_diagnostic]
  | .mk a .Null => simp [analyze_sizes]
  | .mk a (.Boolean b) => simp [analyze_sizes]
  | .mk a (.Number n) => simp [analyze_sizes]
  | .mk a (.Str s) => simp [analyze_sizes]
  | .mk a (.Alias n) => simp [analyze_sizes]
  | .mk a (.EnumValue e vn) => simp [analyze_sizes]
  | .mk a (.ArraySpread n) => simp [analyze_sizes]
termination_by structural v

theorem sizes_of_members_no_depth_code (config : LintConfig)
    (members : List Member) (depth : Nat) :
    (sizes_of_members config members depth).filter
      (fun d => d.code == DiagnosticCode.MaxNestingDepth) = [] := by
  match members with
  | [] => simp [sizes_of_members]
  | .Pair k value :: rest =>
      have h1 := analyze_sizes_no_depth_code config value (depth + 1)
      have h2 := sizes_of_members_no_depth_code config rest depth
      simp [sizes_of_members, List.filter_append, h1, h2]
  | .Spread n :: rest =>
      have h2 := sizes_of_members_no_depth_code config rest depth
      simpa [sizes_of_members] using h2
  | .Import p :: rest =>
      have h2 := sizes_of_members_no_depth_code config rest depth
      simpa [sizes_of_members] using h2
  | .TypeDefinition td :: rest =>
      have h2 := sizes_of_members_no_depth_code config rest depth
      simpa [sizes_of_members] using h2
termination_by structural members

theorem sizes_of_items_no_depth_code (config : LintConfig)
    (items : List MonValue) (depth : Nat) :
    (sizes_of_items config items depth).filter
      (fun d => d.code == DiagnosticCode.MaxNestingDepth) = [] := by
  match items with
  | [] => simp [sizes_of_items]
  | item :: rest =>
      have h1 := analyze_sizes_no_depth_code config item (depth + 1)
      have h2 := sizes_of_items_no_depth_code config rest depth
      simp [sizes_of_items, List.filter_append, h1, h2]
termination_by structural items
end

/-- C6: the complexity analyzer emits exactly one LINT1001 diagnostic iff
the document's maximum nesting depth `D` exceeds the configured threshold
`T` (no matter how many branches reach depth `D` — the check runs once on
the global maximum), with the severe "by more than 2 levels" wording iff
`D > T + 2`, and no LINT1001 diagnostic when `D ≤ T`. -/
theorem nesting_depth_single_diagnostic (config : LintConfig) (root : MonValue) :
    ((complexity_analyze config root).filter
        (fun d => d.code == DiagnosticCode.MaxNestingDepth) =
      if config.max_nesting_depth < calculate_max_depth root 0 then
        [add_diagnostic .MaxNestingDepth
          (if config.max_nesting_depth + 2 < calculate_max_depth root 0 then
            depth_message_severe (calculate_max_depth root 0) config.max_nesting_depth
          else
            depth_message_marginal (calculate_max_depth root 0) config.max_nesting_depth)
          none]
      else []) ∧
    ((complexity_analyze config root).countP
        (fun d => d.code == DiagnosticCode.MaxNestingDepth) =
      if config.max_nesting_depth < calculate_max_depth root 0 then 1 else 0) := by
  have hsizes := analyze_sizes_no_depth_code config root 0
  have hfilter : (complexity_analyze config root).filter
      (fun d => d.code == DiagnosticCode.MaxNestingDepth) =
      if config.max_nesting_depth < calculate_max_depth root 0 then
        [add_diagnostic .MaxNestingDepth
          (if config.max_nesting_depth + 2 < calculate_max_depth root 0 then
            depth_message_severe (calculate_max_depth root 0) config.max_nesting_depth
          else
            depth_message_marginal (calculate_max_depth root 0) config.max_nesting_depth)
          none] else [] := by
    simp only [complexity_analyze, List.filter_append, hsizes, List.append_nil]
    by_cases h1 : config.max_nesting_depth < calculate_max_depth root 0
    · by_cases h2 : config.max_nesting_depth + 2 < calculate_max_depth root 0 <;>
        simp [h1, h2, add_diagnostic]
    · simp [h1]
  refine ⟨hfilter, ?_⟩
  rw [List.countP_eq_length_filter, hfilter]
  by_cases h1 : config.max_nesting_depth < calculate_max_depth root 0 <;> simp [h1]

/-! ## src/linter/symbol_table.rs -/

/-- `SymbolKind` from src/linter/symbol_table.rs (`Type` is spelt `Typ`
because `Type` is a Lean keyword). -/
inductive SymbolKind : Type where
  | Anchor
  | Typ
  | Import
  | Field
  | EnumVariant
deriving DecidableEq, Repr

/-- `ReferenceKind` from src/linter/symbol_table.rs. -/
inductive ReferenceKind : Type where
  | Alias
  | Spread
  | TypeAnnotation
  | Import
deriving DecidableEq, Repr

/-- `Symbol` from src/linter/symbol_table.rs. -/
structure Symbol : Type where
  name : String
  kind : SymbolKind
  range : Range
  detail : Option String
  documentation : Option String
deriving DecidableEq, Repr

/-- `SymbolReference` from src/linter/symbol_table.rs. -/
structure SymbolReference : Type where
  symbol_name : String
  symbol_kind : SymbolKind
  range : Range
  reference_kind : ReferenceKind
deriving DecidableEq, Repr

/-- `SymbolTable` from src/linter/symbol_table.rs.  The two `HashMap`s are
modelled as association lists: `symbols` keyed by `(name, kind)` with
`add_symbol` keeping keys unique (the map-insert semantics), and the
per-key `Vec<SymbolReference>` lists flattened into one insertion-ordered
list of `(key, reference)` entries (`find_references` filters by key, which
preserves each key's push order). -/
structure SymbolTable : Type where
  symbols : List ((String × SymbolKind) × Symbol)
  references : List ((String × SymbolKind) × SymbolReference)
deriving DecidableEq, Repr

/-- `SymbolTable::new`. -/
def SymbolTable.new : SymbolTable :=
  { symbols := [], references := [] }

/-- `SymbolTable::add_symbol`: inserts under key `(name, kind)`, replacing
any existing definition under the same key (`HashMap::insert`). -/
def add_symbol (table : SymbolTable) (symbol : Symbol) : SymbolTable :=
  let key := (symbol.name, symbol.kind)
  { table with
    symbols := (table.symbols.filter fun e => !(e.1 == key)) ++ [(key, symbol)] }

/-- `SymbolTable::add_reference`: appends to the key's reference list
(`entry(key).or_default().push(reference)`). -/
def add_reference (table : SymbolTable) (reference : SymbolReference) :
    SymbolTable :=
  let key := (reference.symbol_name, reference.symbol_kind)
  { table with references := table.references ++ [(key, reference)] }

/-- `SymbolTable::find_symbol`. -/
def find_symbol (table : SymbolTable) (name : String) (kind : SymbolKind) :
    Option Symbol :=
  (table.symbols.find? fun e => e.1 == (name, kind)).map (·.2)

/-- `SymbolTable::find_references`. -/
def find_references (table : SymbolTable) (name : String) (kind : SymbolKind) :
    List SymbolReference :=
  (table.references.filter fun e => e.1 == (name, kind)).map (·.2)

/-- `SymbolTable::is_unused`: defined but never referenced. -/
def is_unused (table : SymbolTable) (name : String) (kind : SymbolKind) : Bool :=
  (find_symbol table name kind).isSome && (find_references table name kind).isEmpty

/-- `SymbolTable::find_unused_symbols`: every definition of the kind whose
key satisfies `is_unused` (`HashMap` iteration order is unspecified, so the
claims below characterise only membership). -/
def find_unused_symbols (table : SymbolTable) (kind : SymbolKind) : List Symbol :=
  (table.symbols.filter fun e => e.1.2 == kind && is_unused table e.1.1 kind).map (·.2)

/-- The invariant every table reachable through `add_symbol` /
`add_reference` satisfies: symbol keys are unique (they form a `HashMap`
key set) and each entry's key is built from its symbol's own name and kind
(as `add_symbol` does). -/
def TableWF (table : SymbolTable) : Prop :=
  (table.symbols.map (·.1)).Nodup ∧
    ∀ e ∈ table.symbols, e.1 = (e.2.name, e.2.kind)

instance : DecidablePred TableWF := fun table => by
  unfold TableWF
  infer_instance

theorem find?_filter_of_imp {α : Type} (xs : List α) (p q : α → Bool)
    (h : ∀ e, p e = true → q e = true) :
    (xs.filter q).find? p = xs.find? p := by
  induction xs with
  | nil => rfl
  | cons a l ih =>
      by_cases hq : q a = true
      · rw [List.filter_cons_of_pos hq]
        by_cases hp : p a = true
        · rw [List.find?_cons_of_pos _ hp, List.find?_cons_of_pos _ hp]
        · rw [List.find?_cons_of_neg _ (by simp [hp]),
            List.find?_cons_of_neg _ (by simp [hp]), ih]
      · have hp : ¬ p a = true := fun hpa => hq (h a hpa)
        rw [List.filter_cons_of_neg (by simp [hq]),
          List.find?_cons_of_neg _ (by simp [hp]), ih]

theorem find?_of_mem_nodup_keys {β : Type} {l : List ((String × SymbolKind) × β)}
    (hnd : (l.map (·.1)).Nodup) {e : (String × SymbolKind) × β} (he : e ∈ l) :
    l.find? (fun x => x.1 == e.1) = some e := by
  induction l with
  | nil => cases he
  | cons a l ih =>
      rw [List.map_cons] at hnd
      obtain ⟨hnotin, hnd2⟩ := List.nodup_cons.mp hnd
      rcases List.mem_cons.mp he with rfl | he2
      · exact List.find?_cons_of_pos _ (by simp)
      · have hne : a.1 ≠ e.1 := by
          intro hkey
          exact hnotin (by rw [hkey]; exact List.mem_map_of_mem (·.1) he2)
        rw [List.find?_cons_of_neg _ (by simp [hne]), ih hnd2 he2]

/-- C7: the symbol-table contract — `add_symbol` replaces the definition
under the same `(name, kind)` key and leaves other keys alone;
`add_reference` appends to its key's reference list and leaves other keys
alone; `is_unused` holds iff a definition exists and its reference list is
empty; and (for a well-formed table, the invariant every table built by the
operations satisfies) `find_unused_symbols kind` contains exactly the
definitions of that kind satisfying `is_unused`. -/
theorem symbol_table_contract (t : SymbolTable) (s : Symbol)
    (r : SymbolReference) (n : String) (k : SymbolKind) (sym : Symbol)
    (kind : SymbolKind) :
    (find_symbol (add_symbol t s) s.name s.kind = some s) ∧
    ((n, k) ≠ (s.name, s.kind) →
      find_symbol (add_symbol t s) n k = find_symbol t n k) ∧
    (find_references (add_reference t r) r.symbol_name r.symbol_kind =
      find_references t r.symbol_name r.symbol_kind ++ [r]) ∧
    ((n, k) ≠ (r.symbol_name, r.symbol_kind) →
      find_references (add_reference t r) n k = find_references t n k) ∧
    (is_unused t n k = true ↔
      (∃ s0, find_symbol t n k = some s0) ∧ find_references t n k = []) ∧
    (TableWF t →
      (sym ∈ find_unused_symbols t kind ↔
        sym.kind = kind ∧ find_symbol t sym.name kind = some sym ∧
          is_unused t sym.name kind = true)) := by
  refine ⟨?_, ?_, ?_, ?_, ?_, ?_⟩
  · -- add_symbol: the new definition is found under its key
    unfold find_symbol add_symbol
    rw [List.find?_append]
    have hnone : (List.find? (fun e => e.1 == (s.name, s.kind))
        (t.symbols.filter fun e => !(e.1 == (s.name, s.kind)))) = none := by
      rw [List.find?_eq_none]
      intro x hx
      have := (List.mem_filter.mp hx).2
      simp only [Bool.not_eq_true'] at this
      simp [this]
    rw [hnone]
    simp
  · -- add_symbol: other keys unchanged
    intro hne
    unfold find_symbol add_symbol
    rw [List.find?_append]
    have hlast : (List.find? (fun e => e.1 == (n, k))
        [((s.name, s.kind), s)]) = none := by
      rw [List.find?_eq_none]
      intro x hx
      simp only [List.mem_singleton] at hx
      subst hx
      simp [Ne.symm hne]
    rw [hlast, Option.or_none]
    rw [find?_filter_of_imp]
    intro e hpe
    have he1 : e.1 = (n, k) := by simpa using hpe
    simp only [he1, Bool.not_eq_true', beq_eq_false_iff_ne]
    exact hne
  · -- add_reference: the key's list gains the reference at the end
    unfold find_references add_reference
    rw [List.filter_append, List.map_append]
    simp
  · -- add_reference: other keys unchanged
    intro hne
    unfold find_references add_reference
    rw [List.filter_append, List.map_append]
    have : (List.filter (fun e => e.1 == (n, k))
        [((r.symbol_name, r.symbol_kind), r)]) = [] := by
      simp [Ne.symm hne]
    rw [this]
    simp
  · -- is_unused characterisation
    unfold is_unused
    rw [Bool.and_eq_true]
    constructor
    · rintro ⟨h1, h2⟩
      exact ⟨Option.isSome_iff_exists.mp h1, List.isEmpty_iff.mp h2⟩
    · rintro ⟨⟨s0, h1⟩, h2⟩
      exact ⟨by simp [h1], by simp [h2]⟩
  · -- find_unused_symbols membership characterisation
    rintro ⟨hnd, hkeys⟩
    unfold find_unused_symbols
    constructor
    · intro hmem
      obtain ⟨e, he, heq⟩ := List.mem_map.mp hmem
      obtain ⟨hes, hcond⟩ := List.mem_filter.mp he
      obtain ⟨hk2, hun⟩ := Bool.and_eq_true_iff.mp hcond
      have hk2 : e.1.2 = kind := by simpa using hk2
      have hkey := hkeys e hes
      have hname : e.1.1 = sym.name := by rw [hkey, heq]
      have hkind : sym.kind = kind := by
        have : e.1.2 = sym.kind := by rw [hkey, heq]
        rw [← this, hk2]
      refine ⟨hkind, ?_, ?_⟩
      · unfold find_symbol
        have hkey2 : e.1 = (sym.name, kind) := by
          rw [hkey, heq, hkind]
        rw [← hkey2, find?_of_mem_nodup_keys hnd hes]
        simp [heq]
      · rw [← hname]
        exact hun
    · rintro ⟨hkind, hfs, hun⟩
      unfold find_symbol at hfs
      obtain ⟨e, hfind, heq⟩ := Option.map_eq_some'.mp hfs
      have hes := List.mem_of_find?_eq_some hfind
      have hpe := List.find?_some hfind
      have hkey : e.1 = (sym.name, kind) := by simpa using hpe
      refine List.mem_map.mpr ⟨e, List.mem_filter.mpr ⟨hes, ?_⟩, heq⟩
      rw [Bool.and_eq_true]
      constructor
      · simp [hkey]
      · rw [hkey]
        exact hun

/-- A concrete symbol used only to instantiate the C7 contract. -/
def wit_s1 : Symbol :=
  { name := "a", kind := .Anchor,
    range := ⟨⟨0, 0⟩, ⟨0, 1⟩⟩, detail := none, documentation := none }

/-- A concrete reference (to a different key) used only to instantiate the
C7 contract. -/
def wit_r1 : SymbolReference :=
  { symbol_name := "b", symbol_kind := .Anchor,
    range := ⟨⟨1, 0⟩, ⟨1, 1⟩⟩, reference_kind := .Alias }

/-- A concrete two-operation table used only to instantiate the C7
contract. -/
def wit_t1 : SymbolTable :=
  add_reference (add_symbol SymbolTable.new wit_s1) wit_r1

/-- C7 witness: a concrete two-operation table (one anchor definition, one
reference to a different key) instantiating every hypothesis of the
contract. -/
theorem symbol_table_contract_witness :
    ("a", SymbolKind.Anchor) ≠ (wit_r1.symbol_name, wit_r1.symbol_kind) ∧
      TableWF wit_t1 ∧
      (find_references (add_reference wit_t1 wit_r1) "a" .Anchor =
        find_references wit_t1 "a" .Anchor) ∧
      (wit_s1 ∈ find_unused_symbols wit_t1 .Anchor ↔
        wit_s1.kind = .Anchor ∧
          find_symbol wit_t1 wit_s1.name .Anchor = some wit_s1 ∧
          is_unused wit_t1 wit_s1.name .Anchor = true) := by
  refine ⟨by decide, by decide, ?_, ?_⟩
  · exact (symbol_table_contract wit_t1 wit_s1 wit_r1 "a" .Anchor
      wit_s1 .Anchor).2.2.2.1 (by decide)
  · exact (symbol_table_contract wit_t1 wit_s1 wit_r1 "a" .Anchor
      wit_s1 .Anchor).2.2.2.2.2 (by decide)

/-! ## src/linter/position.rs: `Position::from_byte_offset`

The source text is embedded as its character list; the byte index each
`char_indices` step yields is the cumulative UTF-8 size of the preceding
characters (`Char.utf8Size`). -/

/-- Rust `char::len_utf16`: 1 UTF-16 code unit below `0x10000`, 2 above. -/
def len_utf16 (c : Char) : Nat :=
  if c.toNat < 0x10000 then 1 else 2

/-- The loop of `Position::from_byte_offset`: for each `(idx, ch)` of
`char_indices`, break once `idx >= byte_offset`; on `'\n'` increment the
line counter and reset the column, otherwise advance the column by the
character's UTF-16 width. -/
def from_byte_offset_aux (byte_offset : Nat) :
    List Char → Nat → Nat → Nat → Position
  | [], _idx, line, character => ⟨line, character⟩
  | c :: rest, idx, line, character =>
      if byte_offset ≤ idx then ⟨line, character⟩
      else if c = '\n' then
        from_byte_offset_aux byte_offset rest (idx + c.utf8Size) (line + 1) 0
      else
        from_byte_offset_aux byte_offset rest (idx + c.utf8Size) line
          (character + len_utf16 c)

/-- `Position::from_byte_offset` from src/linter/position.rs. -/
def from_byte_offset (source : List Char) (byte_offset : Nat) : Position :=
  from_byte_offset_aux byte_offset source 0 0 0

/-- The characters whose starting byte index is below `byte_offset` (the
characters the scan consumes before breaking). -/
def take_bytes (byte_offset : Nat) : List Char → Nat → List Char
  | [], _idx => []
  | c :: rest, idx =>
      if byte_offset ≤ idx then []
      else c :: take_bytes byte_offset rest (idx + c.utf8Size)

/-- The UTF-8 byte length of the source (`str::len`). -/
def byte_len (source : List Char) : Nat :=
  (source.map Char.utf8Size).sum

/-- Total UTF-16 width of a character list. -/
def utf16_len (cs : List Char) : Nat :=
  (cs.map len_utf16).sum

/-- Newline test used by the scan. -/
def is_nl (c : Char) : Bool :=
  c == '\n'

/-- Position as the spec words it: the line is the number of newlines among
the consumed characters, and the column is the UTF-16 width of the consumed
characters after the last newline. -/
def position_spec (source : List Char) (byte_offset : Nat) : Position :=
  let taken := take_bytes byte_offset source 0
  ⟨taken.countP is_nl,
    utf16_len (taken.reverse.takeWhile fun c => !is_nl c)⟩

theorem takeWhile_append_single {α : Type} (p : α → Bool) (xs : List α) (a : α) :
    (xs ++ [a]).takeWhile p =
      if xs.all p then xs ++ [a].takeWhile p else xs.takeWhile p := by
  induction xs with
  | nil => simp
  | cons x xs ih =>
      by_cases hx : p x = true
      · simp only [List.cons_append, List.takeWhile_cons, hx, if_true, ih,
          List.all_cons, Bool.true_and]
        by_cases hall : xs.all p = true <;> simp [hall]
      · simp [List.takeWhile_cons, hx, List.all_cons]

theorem from_byte_offset_aux_spec (off : Nat) : ∀ (cs : List Char)
    (idx line character : Nat),
    from_byte_offset_aux off cs idx line character =
      ⟨line + (take_bytes off cs idx).countP is_nl,
        if (take_bytes off cs idx).any is_nl then
          utf16_len ((take_bytes off cs idx).reverse.takeWhile fun c => !is_nl c)
        else character + utf16_len (take_bytes off cs idx)⟩ := by
  intro cs
  induction cs with
  | nil =>
      intro idx line character
      simp [from_byte_offset_aux, take_bytes, utf16_len]
  | cons c rest ih =>
      intro idx line character
      by_cases hidx : off ≤ idx
      · simp [from_byte_offset_aux, take_bytes, hidx, utf16_len]
      · have htake : take_bytes off (c :: rest) idx =
            c :: take_bytes off rest (idx + c.utf8Size) := by
          simp [take_bytes, hidx]
        set T := take_bytes off rest (idx + c.utf8Size) with hT
        by_cases hc : c = '\n'
        · subst hc
          rw [show from_byte_offset_aux off ('\n' :: rest) idx line character =
              from_byte_offset_aux off rest (idx + '\n'.utf8Size) (line + 1) 0 by
            simp [from_byte_offset_aux, hidx]]
          rw [ih]
          rw [htake]
          have hcnt : ('\n' :: T).countP is_nl = T.countP is_nl + 1 := by
            simp [List.countP_cons, is_nl]
          have hany : ('\n' :: T).any is_nl = true := by simp [is_nl]
          have hrev : ('\n' :: T).reverse = T.reverse ++ ['\n'] := by simp
          rw [hany]
          simp only [hcnt, hrev, if_true]
          rw [takeWhile_append_single]
          by_cases hTany : T.any is_nl = true
          · have hall : T.reverse.all (fun c => !is_nl c) = false := by
              obtain ⟨x, hx, hpx⟩ := List.any_eq_true.mp hTany
              refine List.all_eq_false.mpr ⟨x, List.mem_reverse.mpr hx, by simp [hpx]⟩
            rw [hall]
            simp only [Bool.false_eq_true, if_false, hTany, if_true, ← hT,
              Position.mk.injEq]
            exact ⟨by omega, by trivial⟩
          · have hall : T.reverse.all (fun c => !is_nl c) = true := by
              refine List.all_eq_true.mpr ?_
              intro x hx
              have hxT : x ∈ T := List.mem_reverse.mp hx
              by_cases hpx : is_nl x = true
              · exact absurd (List.any_eq_true.mpr ⟨x, hxT, hpx⟩) hTany
              · simp [Bool.not_eq_true] at hpx
                simp [hpx]
            rw [hall]
            have hnl : ([('\n' : Char)].takeWhile fun c => !is_nl c) = [] := by
              simp [List.takeWhile_cons, is_nl]
            simp only [if_true, hnl, List.append_nil, hTany, Bool.false_eq_true,
              if_false, ← hT, Position.mk.injEq]
            have hsum : utf16_len T.reverse = utf16_len T := by
              simp [utf16_len, List.map_reverse, List.sum_reverse]
            exact ⟨by omega, by omega⟩
        · rw [show from_byte_offset_aux off (c :: rest) idx line character =
              from_byte_offset_aux off rest (idx + c.utf8Size) line
                (character + len_utf16 c) by
            simp [from_byte_offset_aux, hidx, hc]]
          rw [ih]
          rw [htake]
          have hnlc : is_nl c = false := by simp [is_nl, hc]
          have hcnt : (c :: T).countP is_nl = T.countP is_nl := by
            simp [List.countP_cons, hnlc]
          have hany : (c :: T).any is_nl = T.any is_nl := by
            simp [List.any_cons, hnlc]
          have hrev : (c :: T).reverse = T.reverse ++ [c] := by simp
          simp only [hcnt, hany, hrev]
          by_cases hTany : T.any is_nl = true
          · have hall : T.reverse.all (fun c => !is_nl c) = false := by
              obtain ⟨x, hx, hpx⟩ := List.any_eq_true.mp hTany
              refine List.all_eq_false.mpr ⟨x, List.mem_reverse.mpr hx, by simp [hpx]⟩
            rw [takeWhile_append_single, hall]
            simp [hTany]
          · have hall : T.reverse.all (fun c => !is_nl c) = true := by
              refine List.all_eq_true.mpr ?_
              intro x hx
              have hxT : x ∈ T := List.mem_reverse.mp hx
              by_cases hpx : is_nl x = true
              · exact absurd (List.any_eq_true.mpr ⟨x, hxT, hpx⟩) hTany
              · simp [Bool.not_eq_true] at hpx
                simp [hpx]
            rw [takeWhile_append_single, hall]
            have hckeep : ([c].takeWhile fun c => !is_nl c) = [c] := by
              simp [List.takeWhile_cons, hnlc]
            simp only [if_true, hckeep, hTany, Bool.false_eq_true, if_false,
              ← hT, Position.mk.injEq]
            have hsum : utf16_len (T.reverse ++ [c]) =
                utf16_len T + len_utf16 c := by
              simp [utf16_len, List.map_reverse, List.sum_reverse, List.sum_append]
            have hsum2 : utf16_len (c :: T) = len_utf16 c + utf16_len T := by
              simp [utf16_len]
            exact ⟨trivial, by omega⟩

theorem take_bytes_of_le (off : Nat) : ∀ (cs : List Char) (idx : Nat),
    idx + byte_len cs ≤ off → take_bytes off cs idx = cs := by
  intro cs
  induction cs with
  | nil => intro idx h; rfl
  | cons c rest ih =>
      intro idx h
      have hlen : byte_len (c :: rest) = c.utf8Size + byte_len rest := by
        simp [byte_len]
      have hpos := Char.utf8Size_pos c
      have hidx : ¬ off ≤ idx := by omega
      rw [take_bytes, if_neg hidx, ih (idx + c.utf8Size) (by omega)]

/-- C8: `Position::from_byte_offset` scans from the start of the source,
counting `'\n'` characters for the line and accumulating UTF-16 widths
since the last newline for the column (non-BMP characters advance the
column by 2), over exactly the characters that start before the byte
offset; any offset at or beyond the source's byte length yields the
position after the last character (clamping, no error). -/
theorem position_from_byte_offset_contract (source : List Char)
    (byte_offset : Nat) :
    from_byte_offset source byte_offset = position_spec source byte_offset ∧
    (byte_len source ≤ byte_offset →
      from_byte_offset source byte_offset =
        from_byte_offset source (byte_len source)) := by
  have h1 : ∀ off, from_byte_offset source off = position_spec source off := by
    intro off
    rw [from_byte_offset, from_byte_offset_aux_spec off source 0 0 0]
    unfold position_spec
    by_cases hany : (take_bytes off source 0).any is_nl = true
    · simp [hany]
    · have hall : (take_bytes off source 0).reverse.all
          (fun c => !is_nl c) = true := by
        refine List.all_eq_true.mpr ?_
        intro x hx
        have hxT := List.mem_reverse.mp hx
        by_cases hpx : is_nl x = true
        · exact absurd (List.any_eq_true.mpr ⟨x, hxT, hpx⟩) hany
        · simp [Bool.not_eq_true] at hpx
          simp [hpx]
      have htw : ((take_bytes off source 0).reverse.takeWhile
          fun c => !is_nl c) = (take_bytes off source 0).reverse := by
        exact List.takeWhile_eq_self_iff.mpr (by
          intro x hx
          exact (List.all_eq_true.mp hall) x hx)
      have hsum : utf16_len (take_bytes off source 0).reverse =
          utf16_len (take_bytes off source 0) := by
        simp [utf16_len, List.map_reverse, List.sum_reverse]
      simp [hany, htw, hsum]
  refine ⟨h1 byte_offset, ?_⟩
  intro hle
  rw [h1 byte_offset, h1 (byte_len source)]
  unfold position_spec
  rw [take_bytes_of_le byte_offset source 0 (by omega),
    take_bytes_of_le (byte_len source) source 0 (by omega)]

/-- C8 witness: a source with a newline and a non-BMP character (the
musical G clef, UTF-8 size 4, UTF-16 width 2); the out-of-range offset 20
clamps to the end position, line 1 column 4. -/
theorem position_from_byte_offset_contract_witness :
    byte_len ['a', 'b', '\n', 'c', '𝄞', 'd'] ≤ 20 ∧
      from_byte_offset ['a', 'b', '\n', 'c', '𝄞', 'd'] 20 =
        from_byte_offset ['a', 'b', '\n', 'c', '𝄞', 'd']
          (byte_len ['a', 'b', '\n', 'c', '𝄞', 'd']) ∧
      from_byte_offset ['a', 'b', '\n', 'c', '𝄞', 'd'] 20 = ⟨1, 4⟩ :=
  ⟨by decide,
    (position_from_byte_offset_contract ['a', 'b', '\n', 'c', '𝄞', 'd'] 20).2
      (by decide),
    by decide⟩

/-! ## src/formatter/advanced.rs: `sort_members` -/

/-- `KeySortStyle` from src/formatter/config.rs. -/
inductive KeySortStyle : Type where
  | None
  | Alpha
  | Length
deriving DecidableEq, Repr

/-- `get_member_key` from src/formatter/advanced.rs. -/
def get_member_key : Member → String
  | .Pair key _ => key
  | .TypeDefinition td => td.name
  | .Spread name => name
  | .Import _ => ""

/-- Lexicographic comparison of character lists.  Rust's `String::cmp` is
the lexicographic byte order on UTF-8, which coincides with the
lexicographic code-point order computed here. -/
def lex_le : List Char → List Char → Bool
  | [], _ => true
  | _ :: _, [] => false
  | c :: cs, d :: ds =>
      if c < d then true
      else if d < c then false
      else lex_le cs ds

theorem lex_le_total : ∀ a b : List Char, lex_le a b = true ∨ lex_le b a = true := by
  intro a
  induction a with
  | nil => intro b; left; rfl
  | cons c cs ih =>
      intro b
      cases b with
      | nil => right; rfl
      | cons d ds =>
          by_cases hcd : c < d
          · left; simp [lex_le, hcd]
          · by_cases hdc : d < c
            · right; simp [lex_le, hdc, lt_asymm hdc]
            · rcases ih ds with h | h
              · left; simp [lex_le, hcd, hdc, h]
              · right; simp [lex_le, hcd, hdc, h]

theorem lex_le_trans : ∀ a b c : List Char,
    lex_le a b = true → lex_le b c = true → lex_le a c = true := by
  intro a
  induction a with
  | nil => intro b c _ _; rfl
  | cons x xs ih =>
      intro b c hab hbc
      cases b with
      | nil => simp [lex_le] at hab
      | cons y ys =>
          cases c with
          | nil => simp [lex_le] at hbc
          | cons z zs =>
              by_cases hxy : x < y
              · -- x < y and y ≤ z pointwise gives x < z
                by_cases hyz : y < z
                · simp [lex_le, lt_trans hxy hyz]
                · by_cases hzy : z < y
                  · simp [lex_le, hyz, hzy] at hbc
                  · have hyzeq : y = z := le_antisymm (not_lt.mp hzy) (not_lt.mp hyz)
                    subst hyzeq
                    simp [lex_le, hxy]
              · by_cases hyx : y < x
                · simp [lex_le, hxy, hyx] at hab
                · have hxyeq : x = y := le_antisymm (not_lt.mp hyx) (not_lt.mp hxy)
                  subst hxyeq
                  simp only [lex_le, if_neg (lt_irrefl x), if_neg (lt_irrefl x)] at hab
                  by_cases hxz : x < z
                  · simp [lex_le, hxz]
                  · by_cases hzx : z < x
                    · simp [lex_le, hxz, hzx] at hbc
                    · simp only [lex_le, if_neg hxz, if_neg hzx] at hbc ⊢
                      exact ih ys zs hab hbc

/-- The `Alpha` comparator of `sort_members` (`key_a.cmp(&key_b)`). -/
def alpha_le (a b : Member) : Prop :=
  lex_le (get_member_key a).data (get_member_key b).data = true

instance : DecidableRel alpha_le := fun a b =>
  inferInstanceAs (Decidable (_ = true))

instance : IsTotal Member alpha_le :=
  ⟨fun a b => lex_le_total (get_member_key a).data (get_member_key b).data⟩

instance : IsTrans Member alpha_le :=
  ⟨fun _ _ _ h1 h2 => lex_le_trans _ _ _ h1 h2⟩

/-- The `Length` comparator of `sort_members`: `key_a.len()` is the UTF-8
byte length. -/
def len_le (a b : Member) : Prop :=
  rustStrLen (get_member_key a) ≤ rustStrLen (get_member_key b)

instance : DecidableRel len_le := fun a b =>
  inferInstanceAs (Decidable (_ ≤ _))

instance : IsTotal Member len_le :=
  ⟨fun a b => Nat.le_total _ _⟩

instance : IsTrans Member len_le :=
  ⟨fun _ _ _ h1 h2 => Nat.le_trans h1 h2⟩

/-- The partition loop of `sort_members`: one pass over the members pushing
each into (type_defs, anchored, regular, other) in source order. -/
def partition_groups : List Member →
    List Member × List Member × List Member × List Member
  | [] => ([], [], [], [])
  | m :: rest =>
      let g := partition_groups rest
      match m with
      | .TypeDefinition _ => (m :: g.1, g.2.1, g.2.2.1, g.2.2.2)
      | .Pair key value =>
          if value.anchor.isSome && value.anchor == some key then
            (g.1, m :: g.2.1, g.2.2.1, g.2.2.2)
          else
            (g.1, g.2.1, m :: g.2.2.1, g.2.2.2)
      | _ => (g.1, g.2.1, g.2.2.1, m :: g.2.2.2)

/-- The per-style sort of the two pair groups.  Rust's `sort_by` is a
stable sort, and a stable sort by a total preorder has a unique result,
which insertion sort computes. -/
def style_sort (style : KeySortStyle) (l : List Member) : List Member :=
  match style with
  | .None => l
  | .Alpha => l.insertionSort alpha_le
  | .Length => l.insertionSort len_le

/-- `sort_members` from src/formatter/advanced.rs: partition into
(type definitions, pairs whose value's anchor equals their key, other
pairs, everything else), sort the two pair groups by the configured key
order, and concatenate the groups back. -/
def sort_members (members : List Member) (style : KeySortStyle) : List Member :=
  if style = KeySortStyle.None then members
  else
    let g := partition_groups members
    g.1 ++ style_sort style g.2.1 ++ style_sort style g.2.2.1 ++ g.2.2.2

/-- Spec-side predicate: a `TypeDefinition` member. -/
def is_td_member : Member → Bool
  | .TypeDefinition _ => true
  | _ => false

/-- Spec-side predicate: a `Pair` whose value's anchor equals its key. -/
def is_anchored_pair : Member → Bool
  | .Pair key value => value.anchor.isSome && value.anchor == some key
  | _ => false

/-- Spec-side predicate: every other `Pair`. -/
def is_regular_pair : Member → Bool
  | .Pair key value => !(value.anchor.isSome && value.anchor == some key)
  | _ => false

/-- Spec-side predicate: `Spread` and `Import` members. -/
def is_other_member : Member → Bool
  | .Spread _ => true
  | .Import _ => true
  | _ => false

theorem partition_groups_eq_filters (members : List Member) :
    partition_groups members =
      (members.filter is_td_member, members.filter is_anchored_pair,
        members.filter is_regular_pair, members.filter is_other_member) := by
  induction members with
  | nil => rfl
  | cons m rest ih =>
      cases m with
      | Pair key value =>
          by_cases h : (value.anchor.isSome && value.anchor == some key) = true
          · simp [partition_groups, ih, List.filter_cons, is_td_member,
              is_anchored_pair, is_regular_pair, is_other_member, h]
          · simp [partition_groups, ih, List.filter_cons, is_td_member,
              is_anchored_pair, is_regular_pair, is_other_member, h]
      | Spread name =>
          simp [partition_groups, ih, List.filter_cons, is_td_member,
            is_anchored_pair, is_regular_pair, is_other_member]
      | Import path =>
          simp [partition_groups, ih, List.filter_cons, is_td_member,
            is_anchored_pair, is_regular_pair, is_other_member]
      | TypeDefinition td =>
          simp [partition_groups, ih, List.filter_cons, is_td_member,
            is_anchored_pair, is_regular_pair, is_other_member]

theorem perm_four_filters (members : List Member) :
    members.Perm (members.filter is_td_member ++
      (members.filter is_anchored_pair ++
        (members.filter is_regular_pair ++ members.filter is_other_member))) := by
  induction members with
  | nil => simp
  | cons m rest ih =>
      have step := ih.cons m
      cases m with
      | Pair key value =>
          by_cases h : (value.anchor.isSome && value.anchor == some key) = true
          · rw [List.filter_cons_of_neg (by simp [is_td_member]),
              List.filter_cons_of_pos (by simp [is_anchored_pair, h]),
              List.filter_cons_of_neg (by simp [is_regular_pair, h]),
              List.filter_cons_of_neg (by simp [is_other_member])]
            simp only [List.cons_append]
            exact step.trans List.perm_middle.symm
          · rw [List.filter_cons_of_neg (by simp [is_td_member]),
              List.filter_cons_of_neg (by simp [is_anchored_pair, h]),
              List.filter_cons_of_pos (by simp [is_regular_pair, h]),
              List.filter_cons_of_neg (by simp [is_other_member])]
            simp only [List.cons_append]
            exact step.trans (List.perm_middle.symm.trans
              (List.Perm.append_left _ List.perm_middle.symm))
      | Spread name =>
          rw [List.filter_cons_of_neg (by simp [is_td_member]),
            List.filter_cons_of_neg (by simp [is_anchored_pair]),
            List.filter_cons_of_neg (by simp [is_regular_pair]),
            List.filter_cons_of_pos (by simp [is_other_member])]
          exact step.trans (List.perm_middle.symm.trans
            (List.Perm.append_left _ (List.perm_middle.symm.trans
              (List.Perm.append_left _ List.perm_middle.symm))))
      | Import path =>
          rw [List.filter_cons_of_neg (by simp [is_td_member]),
            List.filter_cons_of_neg (by simp [is_anchored_pair]),
            List.filter_cons_of_neg (by simp [is_regular_pair]),
            List.filter_cons_of_pos (by simp [is_other_member])]
          exact step.trans (List.perm_middle.symm.trans
            (List.Perm.append_left _ (List.perm_middle.symm.trans
              (List.Perm.append_left _ List.perm_middle.symm))))
      | TypeDefinition td =>
          rw [List.filter_cons_of_pos (by simp [is_td_member]),
            List.filter_cons_of_neg (by simp [is_anchored_pair]),
            List.filter_cons_of_neg (by simp [is_regular_pair]),
            List.filter_cons_of_neg (by simp [is_other_member])]
          simpa using step

theorem style_sort_perm (style : KeySortStyle) (l : List Member) :
    (style_sort style l).Perm l := by
  cases style with
  | None => exact List.Perm.refl l
  | Alpha => exact List.perm_insertionSort alpha_le l
  | Length => exact List.perm_insertionSort len_le l

/-- C9: with an enabled sort style, `sort_members` returns the type
definitions in source order, then the anchor-matches-key pairs sorted by
the configured key order, then the remaining pairs likewise sorted, then
all other members in source order; the output is a permutation of the
input (the input list itself is untouched — the Rust function clones its
slice, and the embedding is pure).  Both sorted groups are permutations of
their source-order filters and are sorted by the style's comparator. -/
theorem sort_members_spec (members : List Member) (style : KeySortStyle)
    (h : style ≠ KeySortStyle.None) :
    sort_members members style =
      members.filter is_td_member ++
        style_sort style (members.filter is_anchored_pair) ++
        style_sort style (members.filter is_regular_pair) ++
        members.filter is_other_member ∧
    (sort_members members style).Perm members ∧
    (style = .Alpha →
      (style_sort style (members.filter is_anchored_pair)).Sorted alpha_le ∧
      (style_sort style (members.filter is_regular_pair)).Sorted alpha_le) ∧
    (style = .Length →
      (style_sort style (members.filter is_anchored_pair)).Sorted len_le ∧
      (style_sort style (members.filter is_regular_pair)).Sorted len_le) := by
  have heq : sort_members members style =
      members.filter is_td_member ++
        style_sort style (members.filter is_anchored_pair) ++
        style_sort style (members.filter is_regular_pair) ++
        members.filter is_other_member := by
    rw [sort_members, if_neg h, partition_groups_eq_filters]
  refine ⟨heq, ?_, ?_, ?_⟩
  · rw [heq]
    have hperm : (members.filter is_td_member ++
        style_sort style (members.filter is_anchored_pair) ++
        style_sort style (members.filter is_regular_pair) ++
        members.filter is_other_member).Perm
        (members.filter is_td_member ++
          (members.filter is_anchored_pair ++
            (members.filter is_regular_pair ++
              members.filter is_other_member))) := by
      simp only [List.append_assoc]
      exact List.Perm.append_left _
        ((style_sort_perm style _).append
          ((style_sort_perm style _).append (List.Perm.refl _)))
    exact hperm.trans (perm_four_filters members).symm
  · rintro rfl
    exact ⟨List.sorted_insertionSort alpha_le _, List.sorted_insertionSort alpha_le _⟩
  · rintro rfl
    exact ⟨List.sorted_insertionSort len_le _, List.sorted_insertionSort len_le _⟩

/-- C9 witness: the `Alpha` style on a small member list — the permutation
property, the sortedness of the regular-pair group, and the concrete
reordering. -/
theorem sort_members_spec_witness :
    KeySortStyle.Alpha ≠ KeySortStyle.None ∧
      (sort_members [.Pair "b" (.mk none .Null), .Pair "a" (.mk none .Null),
          .Spread "s"] .Alpha).Perm
        [.Pair "b" (.mk none .Null), .Pair "a" (.mk none .Null), .Spread "s"] ∧
      (style_sort .Alpha ([Member.Pair "b" (.mk none .Null),
          .Pair "a" (.mk none .Null),
          .Spread "s"].filter is_regular_pair)).Sorted alpha_le ∧
      sort_members [.Pair "b" (.mk none .Null), .Pair "a" (.mk none .Null),
          .Spread "s"] .Alpha =
        [.Pair "a" (.mk none .Null), .Pair "b" (.mk none .Null), .Spread "s"] :=
  ⟨by decide,
    (sort_members_spec [.Pair "b" (.mk none .Null), .Pair "a" (.mk none .Null),
      .Spread "s"] .Alpha (by decide)).2.1,
    ((sort_members_spec [.Pair "b" (.mk none .Null), .Pair "a" (.mk none .Null),
      .Spread "s"] .Alpha (by decide)).2.2.1 rfl).2,
    by rfl⟩

/-! ## src/formatter/config.rs and src/formatter/format.rs

The `comment_map` and `source` parameters threaded through the Rust
value-rendering functions are never read on that path (comments are only
consulted at the document level), so they are omitted from the embedded
signatures. -/

/-- `IndentStyle` from src/formatter/config.rs. -/
inductive IndentStyle : Type where
  | Spaces
  | Tabs
deriving DecidableEq, Repr

/-- `ObjectStyle` from src/formatter/config.rs. -/
inductive ObjectStyle : Type where
  | Expanded
  | Compact
  | Auto
deriving DecidableEq, Repr

/-- `ArrayStyle` from src/formatter/config.rs. -/
inductive ArrayStyle : Type where
  | Expanded
  | Compact
  | Auto
deriving DecidableEq, Repr

/-- `TrailingCommaStyle` from src/formatter/config.rs. -/
inductive TrailingCommaStyle : Type where
  | Always
  | Never
  | Multiline
deriving DecidableEq, Repr

/-- `QuoteStyle` from src/formatter/config.rs. -/
inductive QuoteStyle : Type where
  | Double
  | Single
deriving DecidableEq, Repr

/-- `CommentPlacement` from src/formatter/config.rs. -/
inductive CommentPlacement : Type where
  | Preserve
  | EndOfLine
  | OwnLine
deriving DecidableEq, Repr

/-- `FormatConfig` from src/formatter/config.rs. -/
structure FormatConfig : Type where
  indent_style : IndentStyle
  indent_size : Nat
  max_line_width : Nat
  object_style : ObjectStyle
  object_expand_threshold : Nat
  space_before_colon : Bool
  space_after_colon : Bool
  array_style : ArrayStyle
  array_expand_threshold : Nat
  space_in_brackets : Bool
  trailing_commas : TrailingCommaStyle
  quote_style : QuoteStyle
  comment_placement : CommentPlacement
  single_line_empty_objects : Bool
  single_line_empty_arrays : Bool
  final_newline : Bool
  align_trailing_comments : Bool
  comment_alignment_column : Nat
  sort_keys : KeySortStyle
deriving DecidableEq, Repr

/-- `FormatConfig::default` from src/formatter/config.rs. -/
def FormatConfig.default : FormatConfig :=
  { indent_style := .Spaces
    indent_size := 4
    max_line_width := 80
    object_style := .Auto
    object_expand_threshold := 3
    space_before_colon := false
    space_after_colon := true
    array_style := .Auto
    array_expand_threshold := 5
    space_in_brackets := false
    trailing_commas := .Multiline
    quote_style := .Double
    comment_placement := .Preserve
    single_line_empty_objects := true
    single_line_empty_arrays := true
    final_newline := true
    align_trailing_comments := false
    comment_alignment_column := 0
    sort_keys := .None }

/-- `FormatConfig::indent_string`. -/
def FormatConfig.indent_string (cfg : FormatConfig) : String :=
  match cfg.indent_style with
  | .Spaces => spaces cfg.indent_size
  | .Tabs => "\t"

/-- `str::repeat`. -/
def string_repeat (s : String) : Nat → String
  | 0 => ""
  | n + 1 => s ++ string_repeat s n

/-- `Formatter::indent_at`. -/
def indent_at (cfg : FormatConfig) (depth : Nat) : String :=
  string_repeat cfg.indent_string depth

/-- `needs_quotes` from src/formatter/format.rs. -/
def needs_quotes (key : String) : Bool :=
  rustContains key ' ' || rustContains key '"' ||
    (match key.data with
     | [] => false
     | c :: _ => rustIsNumeric c) ||
    key.data.any fun c => !rustIsAlphanumeric c && c ≠ '_' && c ≠ '-'

/-- `Formatter::format_string`: MON strings always render double-quoted. -/
def format_string (s : String) : String :=
  "\"" ++ s ++ "\""

/-- `Formatter::should_add_trailing_comma`. -/
def should_add_trailing_comma (cfg : FormatConfig) (is_multiline : Bool) : Bool :=
  match cfg.trailing_commas with
  | .Always => true
  | .Never => false
  | .Multiline => is_multiline

/-- Whether a value's kind is a container (`matches!(.., Object | Array)`). -/
def is_container_kind : MonValueKind → Bool
  | .Object _ => true
  | .Array _ => true
  | _ => false

/-- `Formatter::should_expand_array`. -/
def should_expand_array (cfg : FormatConfig) (items : List MonValue) : Bool :=
  match cfg.array_style with
  | .Expanded => true
  | .Compact => false
  | .Auto =>
      items.length > cfg.array_expand_threshold ||
        items.any fun item => is_container_kind item.kind

/-- `Formatter::should_expand_object`. -/
def should_expand_object (cfg : FormatConfig) (members : List Member) : Bool :=
  match cfg.object_style with
  | .Expanded => true
  | .Compact => false
  | .Auto =>
      members.length > cfg.object_expand_threshold ||
        members.any fun member =>
          match member with
          | .Pair _ value => is_container_kind value.kind
          | _ => false

mutual
/-- `Formatter::format_type_spec` from src/formatter/format.rs. -/
def format_type_spec : TypeSpec → String
  | .Simple name => name
  | .Collection specs =>
      "[" ++ String.intercalate ", " (format_type_spec_list specs) ++ "]"
  | .Spread inner => format_type_spec inner ++ "..."
termination_by ts => sizeOf ts

/-- The `Collection` loop of `format_type_spec`. -/
def format_type_spec_list : List TypeSpec → List String
  | [] => []
  | ts :: rest => format_type_spec ts :: format_type_spec_list rest
termination_by l => sizeOf l
end

/-- The enum-variant loop of `Formatter::format_typedef` (double indent per
variant, comma between variants, trailing comma per policy). -/
def format_enum_variants (cfg : FormatConfig) : List String → String
  | [] => ""
  | v :: rest =>
      cfg.indent_string ++ cfg.indent_string ++ v ++
        (if rest.isEmpty then
          (if should_add_trailing_comma cfg true then "," else "")
        else ",") ++ "\n" ++ format_enum_variants cfg rest

/-- The comma the expanded loops append after a member/item/field:
`if i < len - 1 { "," } else if should_add_trailing_comma(true) { "," }`. -/
def last_sep (cfg : FormatConfig) (rest_is_empty : Bool) : String :=
  if rest_is_empty then
    (if should_add_trailing_comma cfg true then "," else "")
  else ","

/- The value-rendering functions of src/formatter/format.rs.  Lean's
structural mutual recursion cannot dispatch `format_value_kind` through a
separate same-argument `format_array` / `format_object` function, so the
bodies of `Formatter::format_array` and `Formatter::format_object` are
inlined into the `.Array` / `.Object` branches of `format_value_kind`; the
named functions `format_array`, `format_array_expanded` and `format_object`
are defined right after the block as exactly those bodies, and
`format_value_kind_array` / `format_value_kind_object` record (by `rfl`)
that the branches agree with them. -/
mutual
/-- `Formatter::format_value`: an anchor renders as a `&name ` prefix. -/
def format_value (cfg : FormatConfig) (value : MonValue) (depth : Nat) : String :=
  match value with
  | .mk anchor kind =>
      (match anchor with
       | some a => "&" ++ a ++ " "
       | none => "") ++ format_value_kind cfg kind depth
termination_by structural value

/-- `Formatter::format_value_without_anchor` (used when the anchor is
already folded into the key position). -/
def format_value_without_anchor (cfg : FormatConfig) (value : MonValue)
    (depth : Nat) : String :=
  match value with
  | .mk _ kind => format_value_kind cfg kind depth
termination_by structural value

/-- `Formatter::format_value_kind`.  The `Number` branch covers the
integer-valued case within `±1e15`, where the source prints the `i64`
decimal form (see the `MonValueKind` doc comment). -/
def format_value_kind (cfg : FormatConfig) (kind : MonValueKind) (depth : Nat) :
    String :=
  match kind with
  | .Null => "null"
  | .Boolean b => if b then "true" else "false"
  | .Number n => toString n
  | .Str s => format_string s
  | .Array items =>
      -- `Formatter::format_array`
      if items.isEmpty then
        (if cfg.single_line_empty_arrays then "[]" else "[\n]")
      else if should_expand_array cfg items then
        "[\n" ++ format_array_items_auto cfg depth items ++
          indent_at cfg depth ++ "]"
      else
        let space := if cfg.space_in_brackets then " " else ""
        let formatted := "[" ++ space ++
          String.intercalate ", " (format_value_list cfg depth items) ++
          space ++ "]"
        if rustStrLen formatted > cfg.max_line_width then
          -- forced re-render: `Formatter::format_array_expanded`
          "[\n" ++ format_array_items_forced cfg depth items ++
            indent_at cfg depth ++ "]"
        else formatted
  | .Object members =>
      -- `Formatter::format_object`
      if members.isEmpty then
        (if cfg.single_line_empty_objects then "\x7b\x7d" else "\x7b\n\x7d")
      else if should_expand_object cfg members then
        "\x7b\n" ++ format_object_members_expanded cfg depth members ++
          indent_at cfg depth ++ "\x7d"
      else
        "\x7b " ++
          String.intercalate ", " (format_object_compact_parts cfg depth members)
          ++ " \x7d"
  | .Alias name => "*" ++ name
  | .EnumValue enum_name variant_name => "$" ++ enum_name ++ "." ++ variant_name
  | .ArraySpread name => "...*" ++ name
termination_by structural kind

/-- The expanded loop of `Formatter::format_array` (the `should_expand`
branch).  The source tests
`inner_indent.len() + formatted_item.len() > max_line_width` here, but both
arms of that test append the same string; the dead test is kept. -/
def format_array_items_auto (cfg : FormatConfig) (depth : Nat) :
    List MonValue → String
  | [] => ""
  | item :: rest =>
      let formatted_item := format_value cfg item (depth + 1)
      indent_at cfg (depth + 1) ++
        (if rustStrLen (indent_at cfg (depth + 1)) + rustStrLen formatted_item >
            cfg.max_line_width then
          formatted_item
        else formatted_item) ++
        last_sep cfg rest.isEmpty ++ "\n" ++
        format_array_items_auto cfg depth rest
termination_by structural l => l

/-- The loop of `Formatter::format_array_expanded` (forced expansion; no
width test of any kind). -/
def format_array_items_forced (cfg : FormatConfig) (depth : Nat) :
    List MonValue → String
  | [] => ""
  | item :: rest =>
      indent_at cfg (depth + 1) ++ format_value cfg item (depth + 1) ++
        last_sep cfg rest.isEmpty ++ "\n" ++
        format_array_items_forced cfg depth rest
termination_by structural l => l

/-- The single-line item renderings of `Formatter::format_array`
(`items.iter().map(|item| self.format_value(item, depth, ..))`). -/
def format_value_list (cfg : FormatConfig) (depth : Nat) :
    List MonValue → List String
  | [] => []
  | item :: rest =>
      format_value cfg item depth :: format_value_list cfg depth rest
termination_by structural l => l

/-- The expanded member loop of `Formatter::format_object`.  An `Import`
member hits `continue` after the indent has been pushed: it contributes the
inner indent and nothing else (no content, no comma, no newline). -/
def format_object_members_expanded (cfg : FormatConfig) (depth : Nat) :
    List Member → String
  | [] => ""
  | .Import _ :: rest =>
      indent_at cfg (depth + 1) ++ format_object_members_expanded cfg depth rest
  | .Pair key value :: rest =>
      indent_at cfg (depth + 1) ++
        (let has_matching_anchor := value.anchor == some key
         (if has_matching_anchor then "&" ++ key
          else if needs_quotes key then format_string key else key) ++
           (if cfg.space_before_colon then " " else "") ++ ":" ++
           (if cfg.space_after_colon then " " else "") ++
           (if has_matching_anchor then
             format_value_without_anchor cfg value (depth + 1)
           else format_value cfg value (depth + 1))) ++
        last_sep cfg rest.isEmpty ++ "\n" ++
        format_object_members_expanded cfg depth rest
  | .Spread name :: rest =>
      indent_at cfg (depth + 1) ++ ("...*" ++ name) ++
        last_sep cfg rest.isEmpty ++ "\n" ++
        format_object_members_expanded cfg depth rest
  | .TypeDefinition td :: rest =>
      indent_at cfg (depth + 1) ++ format_typedef cfg td ++
        last_sep cfg rest.isEmpty ++ "\n" ++
        format_object_members_expanded cfg depth rest
termination_by structural l => l

/-- The compact member parts of `Formatter::format_object`
(`filter_map`): pairs and spreads render, `Import` and `TypeDefinition`
members yield `None` and are dropped. -/
def format_object_compact_parts (cfg : FormatConfig) (depth : Nat) :
    List Member → List String
  | [] => []
  | .Pair key value :: rest =>
      (let has_matching_anchor := value.anchor == some key
       (if has_matching_anchor then "&" ++ key
        else if needs_quotes key then format_string key else key) ++ ":" ++
         (if cfg.space_after_colon then " " else "") ++
         (if has_matching_anchor then
           format_value_without_anchor cfg value depth
         else format_value cfg value depth)) ::
        format_object_compact_parts cfg depth rest
  | .Spread name :: rest =>
      ("...*" ++ name) :: format_object_compact_parts cfg depth rest
  | .Import _ :: rest => format_object_compact_parts cfg depth rest
  | .TypeDefinition _ :: rest => format_object_compact_parts cfg depth rest
termination_by structural l => l

/-- `Formatter::format_typedef`. -/
def format_typedef (cfg : FormatConfig) (typedef : TypeDefinition) : String :=
  match typedef with
  | .mk name (.Struct (.mk fields)) =>
      name ++ ": #struct \x7b\n" ++ format_struct_fields cfg fields ++
        cfg.indent_string ++ "\x7d"
  | .mk name (.Enum e) =>
      name ++ ": #enum \x7b\n" ++ format_enum_variants cfg e.variants ++
        cfg.indent_string ++ "\x7d"
termination_by structural typedef

/-- The struct-field loop of `Formatter::format_typedef` (double indent,
`name(type)`, optional ` = default`, comma policy). -/
def format_struct_fields (cfg : FormatConfig) : List FieldDef → String
  | [] => ""
  | .mk fname tspec dval :: rest =>
      cfg.indent_string ++ cfg.indent_string ++ fname ++ "(" ++
        format_type_spec tspec ++ ")" ++
        (match dval with
         | some d => " = " ++ format_value cfg d 0
         | none => "") ++
        last_sep cfg rest.isEmpty ++ "\n" ++ format_struct_fields cfg rest
termination_by structural l => l
end

/-- `Formatter::format_array` as a named function (the `.Array` branch of
`format_value_kind`). -/
def format_array (cfg : FormatConfig) (items : List MonValue) (depth : Nat) :
    String :=
  if items.isEmpty then
    (if cfg.single_line_empty_arrays then "[]" else "[\n]")
  else if should_expand_array cfg items then
    "[\n" ++ format_array_items_auto cfg depth items ++
      indent_at cfg depth ++ "]"
  else
    let space := if cfg.space_in_brackets then " " else ""
    let formatted := "[" ++ space ++
      String.intercalate ", " (format_value_list cfg depth items) ++
      space ++ "]"
    if rustStrLen formatted > cfg.max_line_width then
      "[\n" ++ format_array_items_forced cfg depth items ++
        indent_at cfg depth ++ "]"
    else formatted

/-- `Formatter::format_array_expanded` as a named function. -/
def format_array_expanded (cfg : FormatConfig) (items : List MonValue)
    (depth : Nat) : String :=
  "[\n" ++ format_array_items_forced cfg depth items ++
    indent_at cfg depth ++ "]"

/-- `Formatter::format_object` as a named function (the `.Object` branch of
`format_value_kind`). -/
def format_object (cfg : FormatConfig) (members : List Member) (depth : Nat) :
    String :=
  if members.isEmpty then
    (if cfg.single_line_empty_objects then "\x7b\x7d" else "\x7b\n\x7d")
  else if should_expand_object cfg members then
    "\x7b\n" ++ format_object_members_expanded cfg depth members ++
      indent_at cfg depth ++ "\x7d"
  else
    "\x7b " ++
      String.intercalate ", " (format_object_compact_parts cfg depth members)
      ++ " \x7d"

theorem format_value_kind_array (cfg : FormatConfig) (items : List MonValue)
    (depth : Nat) :
    format_value_kind cfg (.Array items) depth = format_array cfg items depth := by
  rw [format_value_kind, format_array]

theorem format_value_kind_object (cfg : FormatConfig) (members : List Member)
    (depth : Nat) :
    format_value_kind cfg (.Object members) depth =
      format_object cfg members depth := by
  rw [format_value_kind, format_object]

/-- The single-line rendering `format_array` builds in its non-expanded
branch (before the width test). -/
def format_array_single (cfg : FormatConfig) (items : List MonValue)
    (depth : Nat) : String :=
  let space := if cfg.space_in_brackets then " " else ""
  "[" ++ space ++ String.intercalate ", " (format_value_list cfg depth items) ++
    space ++ "]"

/-- A value kind without sub-containers (its rendering reads nothing from
the configuration except through `format_string`, which reads none). -/
def is_scalar_value : MonValue → Bool
  | .mk _ kind => !is_container_kind kind

theorem format_value_width_irrelevant (cfg : FormatConfig) (w : Nat)
    (v : MonValue) (depth : Nat) (h : is_scalar_value v = true) :
    format_value { cfg with max_line_width := w } v depth =
      format_value cfg v depth := by
  obtain ⟨anchor, kind⟩ := v
  cases kind <;>
    simp_all [format_value, format_value_kind, is_scalar_value, is_container_kind]

/-- C1 counterexample: a compact object whose single-line rendering is 22
bytes long under `max_line_width = 5` is returned single-line as-is —
`Formatter::format_object` has no width fallback (the width test exists
only in `Formatter::format_array`). -/
theorem object_width_fallback_missing :
    format_object
        { FormatConfig.default with object_style := .Compact, max_line_width := 5 }
        [.Pair "aaaaaaaaaa" (.mk none (.Str "bbbb"))] 0 =
      "\x7b aaaaaaaaaa: \"bbbb\" \x7d" ∧
      rustStrLen "\x7b aaaaaaaaaa: \"bbbb\" \x7d" >
        ({ FormatConfig.default with
            object_style := .Compact, max_line_width := 5 } :
          FormatConfig).max_line_width ∧
      ("\x7b aaaaaaaaaa: \"bbbb\" \x7d".data.contains '\n') = false := by
  refine ⟨by rfl, by decide, by decide⟩

/-- C1 (amended): the width fallback exists for non-empty arrays only — when
the style decision keeps the array single-line but that rendering exceeds
`max_line_width` bytes, `format_array` returns `format_array_expanded`,
which is multi-line (it opens with `[` + newline) and contains no width test
of its own (for scalar items its output does not depend on
`max_line_width` at all, so there is exactly one width-driven re-render).
Objects and empty containers have no width fallback (see the
counterexample). -/
theorem array_width_fallback (cfg : FormatConfig) (items : List MonValue)
    (depth : Nat) (hne : items ≠ [])
    (hexp : should_expand_array cfg items = false)
    (hwide : rustStrLen (format_array_single cfg items depth) > cfg.max_line_width) :
    format_array cfg items depth = format_array_expanded cfg items depth ∧
    (∃ s, format_array_expanded cfg items depth = "[\n" ++ s) ∧
    ((∀ item ∈ items, is_scalar_value item = true) → ∀ w,
      format_array_expanded { cfg with max_line_width := w } items depth =
        format_array_expanded cfg items depth) := by
  refine ⟨?_, ⟨format_array_items_forced cfg depth items ++
    indent_at cfg depth ++ "]", by simp [format_array_expanded, String.append_assoc]⟩, ?_⟩
  · rw [format_array, if_neg (by simp [hne]), if_neg (by simp [hexp])]
    simp only [format_array_single] at hwide
    rw [if_pos hwide]
    rfl
  · intro hscalar w
    have hitems : ∀ l : List MonValue, (∀ item ∈ l, is_scalar_value item = true) →
        format_array_items_forced { cfg with max_line_width := w } depth l =
          format_array_items_forced cfg depth l := by
      intro l
      induction l with
      | nil => intro _; rfl
      | cons item rest ih =>
          intro hl
          rw [format_array_items_forced, format_array_items_forced,
            format_value_width_irrelevant cfg w item (depth + 1)
              (hl item (List.mem_cons_self _ _)),
            ih fun x hx => hl x (List.mem_cons_of_mem _ hx)]
          rfl
    rw [format_array_expanded, format_array_expanded, hitems items hscalar]
    rfl

/-- C1 witness: a compact two-element array of numbers under
`max_line_width = 5`; the single-line form `[100, 2000]` is 11 bytes, so
the array is re-rendered expanded, once. -/
theorem array_width_fallback_witness :
    ([MonValue.mk none (.Number 100), .mk none (.Number 2000)] ≠
        ([] : List MonValue)) ∧
      should_expand_array
        { FormatConfig.default with array_style := .Compact, max_line_width := 5 }
        [.mk none (.Number 100), .mk none (.Number 2000)] = false ∧
      rustStrLen (format_array_single
        { FormatConfig.default with array_style := .Compact, max_line_width := 5 }
        [.mk none (.Number 100), .mk none (.Number 2000)] 0) >
        ({ FormatConfig.default with
            array_style := .Compact, max_line_width := 5 } :
          FormatConfig).max_line_width ∧
      format_array
          { FormatConfig.default with array_style := .Compact, max_line_width := 5 }
          [.mk none (.Number 100), .mk none (.Number 2000)] 0 =
        format_array_expanded
          { FormatConfig.default with array_style := .Compact, max_line_width := 5 }
          [.mk none (.Number 100), .mk none (.Number 2000)] 0 ∧
      format_array
          { FormatConfig.default with array_style := .Compact, max_line_width := 5 }
          [.mk none (.Number 100), .mk none (.Number 2000)] 0 =
        "[\n    100,\n    2000,\n]" :=
  ⟨by exact List.cons_ne_nil _ _, by rfl, by decide,
    (array_width_fallback
      { FormatConfig.default with array_style := .Compact, max_line_width := 5 }
      [.mk none (.Number 100), .mk none (.Number 2000)] 0
      (by exact List.cons_ne_nil _ _) (by rfl) (by decide)).1,
    by rfl⟩

/-- `matches!(m, Member::Import(_))`. -/
def is_import_member : Member → Bool
  | .Import _ => true
  | _ => false

theorem compact_parts_skip_declarations (cfg : FormatConfig) (depth : Nat) :
    ∀ ms : List Member,
    format_object_compact_parts cfg depth
        (ms.filter fun m => !(is_td_member m || is_import_member m)) =
      format_object_compact_parts cfg depth ms := by
  intro ms
  induction ms with
  | nil => rfl
  | cons m rest ih =>
      cases m with
      | Pair key value =>
          rw [List.filter_cons_of_pos (by simp [is_td_member, is_import_member])]
          rw [format_object_compact_parts, format_object_compact_parts, ih]
      | Spread name =>
          rw [List.filter_cons_of_pos (by simp [is_td_member, is_import_member])]
          rw [format_object_compact_parts, format_object_compact_parts, ih]
      | Import path =>
          rw [List.filter_cons_of_neg (by simp [is_td_member, is_import_member])]
          rw [show format_object_compact_parts cfg depth (.Import path :: rest) =
            format_object_compact_parts cfg depth rest from rfl, ih]
      | TypeDefinition td =>
          rw [List.filter_cons_of_neg (by simp [is_td_member, is_import_member])]
          rw [show format_object_compact_parts cfg depth
            (.TypeDefinition td :: rest) =
            format_object_compact_parts cfg depth rest from rfl, ih]

theorem expanded_members_contain_typedef (cfg : FormatConfig) (depth : Nat)
    (td : TypeDefinition) : ∀ ms : List Member, Member.TypeDefinition td ∈ ms →
    ∃ pre post, format_object_members_expanded cfg depth ms =
      pre ++ (format_typedef cfg td ++ post) := by
  intro ms
  induction ms with
  | nil => intro h; cases h
  | cons m rest ih =>
      intro h
      rcases List.mem_cons.mp h with heq | hmem
      · refine ⟨indent_at cfg (depth + 1),
          last_sep cfg rest.isEmpty ++ "\n" ++
            format_object_members_expanded cfg depth rest, ?_⟩
        rw [← heq]
        simp [format_object_members_expanded, String.append_assoc]
      · obtain ⟨pre, post, hpp⟩ := ih hmem
        cases m with
        | Pair key value =>
            refine ⟨(indent_at cfg (depth + 1) ++
              (let has_matching_anchor := value.anchor == some key
               (if has_matching_anchor then "&" ++ key
                else if needs_quotes key then format_string key else key) ++
                 (if cfg.space_before_colon then " " else "") ++ ":" ++
                 (if cfg.space_after_colon then " " else "") ++
                 (if has_matching_anchor then
                   format_value_without_anchor cfg value (depth + 1)
                 else format_value cfg value (depth + 1))) ++
              last_sep cfg rest.isEmpty ++ "\n") ++ pre, post, ?_⟩
            rw [format_object_members_expanded, hpp]
            simp [String.append_assoc]
        | Spread name =>
            refine ⟨(indent_at cfg (depth + 1) ++ ("...*" ++ name) ++
              last_sep cfg rest.isEmpty ++ "\n") ++ pre, post, ?_⟩
            rw [format_object_members_expanded, hpp]
            simp [String.append_assoc]
        | Import path =>
            refine ⟨indent_at cfg (depth + 1) ++ pre, post, ?_⟩
            rw [show format_object_members_expanded cfg depth
              (.Import path :: rest) = indent_at cfg (depth + 1) ++
              format_object_members_expanded cfg depth rest from rfl, hpp]
            simp [String.append_assoc]
        | TypeDefinition td2 =>
            refine ⟨(indent_at cfg (depth + 1) ++ format_typedef cfg td2 ++
              last_sep cfg rest.isEmpty ++ "\n") ++ pre, post, ?_⟩
            rw [format_object_members_expanded, hpp]
            simp [String.append_assoc]

/-- C10: a non-empty object rendered single-line (compact) drops its
`TypeDefinition` and `Import` members entirely — removing them from the
member list does not change the compact output — whereas the expanded form
renders every `TypeDefinition` member (its `format_typedef` text appears in
the output). -/
theorem compact_object_drops_declarations (cfg : FormatConfig)
    (ms : List Member) (depth : Nat) (td : TypeDefinition) :
    (should_expand_object cfg ms = false →
      ms.filter (fun m => !(is_td_member m || is_import_member m)) ≠ [] →
      format_object cfg ms depth =
        format_object cfg
          (ms.filter fun m => !(is_td_member m || is_import_member m)) depth) ∧
    (should_expand_object cfg ms = true → Member.TypeDefinition td ∈ ms →
      ∃ pre post, format_object cfg ms depth =
        pre ++ (format_typedef cfg td ++ post)) := by
  constructor
  · intro hexp hfil
    have hmsne : ms ≠ [] := by
      intro h
      subst h
      simp at hfil
    have hexp2 : should_expand_object cfg
        (ms.filter fun m => !(is_td_member m || is_import_member m)) = false := by
      rw [should_expand_object] at hexp ⊢
      cases hstyle : cfg.object_style with
      | Expanded => rw [hstyle] at hexp; cases hexp
      | Compact => rfl
      | Auto =>
          rw [hstyle] at hexp
          simp only [Bool.or_eq_false_iff] at hexp
          obtain ⟨hlen, hany⟩ := hexp
          simp only [Bool.or_eq_false_iff]
          constructor
          · simp only [decide_eq_false_iff_not, not_lt] at hlen ⊢
            exact le_trans (List.length_filter_le _ ms) hlen
          · rw [List.any_eq_false] at hany ⊢
            intro m hm
            exact hany m (List.mem_filter.mp hm).1
    have h1 : ms.isEmpty = false := by
      cases ms with
      | nil => exact absurd rfl hmsne
      | cons a l => rfl
    have h2 : (ms.filter fun m =>
        !(is_td_member m || is_import_member m)).isEmpty = false := by
      rcases hh : ms.filter fun m => !(is_td_member m || is_import_member m) with
        _ | ⟨a, l⟩
      · exact absurd hh hfil
      · rfl
    rw [format_object, format_object]
    simp only [h1, h2, hexp, hexp2, Bool.false_eq_true, if_false]
    rw [compact_parts_skip_declarations]
  · intro hexp hmem
    obtain ⟨pre, post, hpp⟩ :=
      expanded_members_contain_typedef cfg depth td ms hmem
    have hmsne : ms ≠ [] := by
      intro h
      subst h
      cases hmem
    refine ⟨"\x7b\n" ++ pre, post ++ (indent_at cfg depth ++ "\x7d"), ?_⟩
    rw [format_object, if_neg (by simp [hmsne]), if_pos hexp, hpp]
    simp [String.append_assoc]

/-- C10 witness: under the default (auto, small) configuration the object
`{ T: enum, k: null, import }` renders compact as `{ k: null }` — the type
definition and the import vanish — while under the expanded style the
`format_typedef` text appears in the output. -/
theorem compact_object_drops_declarations_witness :
    should_expand_object FormatConfig.default
        [.TypeDefinition (.mk "T" (.Enum ⟨["A"]⟩)), .Pair "k" (.mk none .Null),
          .Import "p"] = false ∧
      format_object FormatConfig.default
          [.TypeDefinition (.mk "T" (.Enum ⟨["A"]⟩)), .Pair "k" (.mk none .Null),
            .Import "p"] 0 =
        format_object FormatConfig.default
          ([Member.TypeDefinition (.mk "T" (.Enum ⟨["A"]⟩)),
            .Pair "k" (.mk none .Null),
            .Import "p"].filter fun m => !(is_td_member m || is_import_member m))
          0 ∧
      format_object FormatConfig.default
          [.TypeDefinition (.mk "T" (.Enum ⟨["A"]⟩)), .Pair "k" (.mk none .Null),
            .Import "p"] 0 = "\x7b k: null \x7d" ∧
      (∃ pre post, format_object
          { FormatConfig.default with object_style := .Expanded }
          [.TypeDefinition (.mk "T" (.Enum ⟨["A"]⟩)), .Pair "k" (.mk none .Null),
            .Import "p"] 0 =
        pre ++ (format_typedef
          { FormatConfig.default with object_style := .Expanded }
          (.mk "T" (.Enum ⟨["A"]⟩)) ++ post)) :=
  ⟨by rfl,
    (compact_object_drops_declarations FormatConfig.default
      [.TypeDefinition (.mk "T" (.Enum ⟨["A"]⟩)), .Pair "k" (.mk none .Null),
        .Import "p"] 0 (.mk "T" (.Enum ⟨["A"]⟩))).1 (by rfl)
      (by simp [List.filter_cons, is_td_member, is_import_member]),
    by rfl,
    (compact_object_drops_declarations
      { FormatConfig.default with object_style := .Expanded }
      [.TypeDefinition (.mk "T" (.Enum ⟨["A"]⟩)), .Pair "k" (.mk none .Null),
        .Import "p"] 0 (.mk "T" (.Enum ⟨["A"]⟩))).2 (by rfl)
      (List.mem_cons_self _ _)⟩

/-! ## src/linter/smells.rs: unused anchors (C2)

`detect_unused_anchors` collects the defined anchors into a `HashSet` and
then iterates over that set.  A Rust `HashSet` built with the default
`RandomState` iterates in a seed-dependent order that varies between
`HashSet` instances even within one process, so the emission order is not a
function of (source, config).  The iteration order is therefore an explicit
parameter, constrained (`valid_anchor_enum`) to enumerate the defined-anchor
set without duplicates. -/

mutual
/-- `SmellDetector::collect_anchors` from src/linter/smells.rs: the
pre-order sequence of anchor names (the `HashSet` it fills is this list's
set of elements).  Objects recurse through `Pair` values only; arrays
through every item. -/
def collect_anchors (v : MonValue) : List String :=
  match v with
  | .mk anchor kind =>
      (match anchor with
       | some a => [a]
       | none => []) ++ collect_anchors_kind kind
termination_by structural v

/-- The kind dispatch of `collect_anchors`. -/
def collect_anchors_kind : MonValueKind → List String
  | .Object members => collect_anchors_members members
  | .Array items => collect_anchors_items items
  | _ => []
termination_by structural k => k

/-- The object loop of `collect_anchors` (pair values only). -/
def collect_anchors_members : List Member → List String
  | [] => []
  | .Pair _ value :: rest =>
      collect_anchors value ++ collect_anchors_members rest
  | _ :: rest => collect_anchors_members rest
termination_by structural l => l

/-- The array loop of `collect_anchors`. -/
def collect_anchors_items : List MonValue → List String
  | [] => []
  | item :: rest => collect_anchors item ++ collect_anchors_items rest
termination_by structural l => l
end

mutual
/-- `SmellDetector::collect_aliases` from src/linter/smells.rs: every name
referenced by an `Alias` or `ArraySpread` value or a `Spread` member
(membership is all that is consumed). -/
def collect_aliases (v : MonValue) : List String :=
  match v with
  | .mk _ kind => collect_aliases_kind kind
termination_by structural v

/-- The kind dispatch of `collect_aliases`. -/
def collect_aliases_kind : MonValueKind → List String
  | .Alias name => [name]
  | .ArraySpread name => [name]
  | .Object members => collect_aliases_members members
  | .Array items => collect_aliases_items items
  | _ => []
termination_by structural k => k

/-- The object loop of `collect_aliases`: pair values recurse, `Spread`
members contribute their name. -/
def collect_aliases_members : List Member → List String
  | [] => []
  | .Pair _ value :: rest =>
      collect_aliases value ++ collect_aliases_members rest
  | .Spread name :: rest => name :: collect_aliases_members rest
  | _ :: rest => collect_aliases_members rest
termination_by structural l => l

/-- The array loop of `collect_aliases`. -/
def collect_aliases_items : List MonValue → List String
  | [] => []
  | item :: rest => collect_aliases item ++ collect_aliases_items rest
termination_by structural l => l
end

/-- The LINT2001 message of `detect_unused_anchors`
(`format!("Anchor '{}' is defined but never used", anchor)`). -/
def unused_anchor_message (anchor : String) : String :=
  "Anchor \x27" ++ anchor ++ "\x27 is defined but never used"

/-- The emission loop of `SmellDetector::detect_unused_anchors`: for every
defined anchor, in `HashSet` iteration order (`defined_order`), absent from
the used set, one diagnostic. -/
def detect_unused_anchors (defined_order : List String)
    (used_anchors : List String) : List Diagnostic :=
  (defined_order.filter fun a => !used_anchors.contains a).map
    fun a => add_diagnostic .UnusedAnchor (unused_anchor_message a) none

/-- `defined_order` is a possible iteration order of the defined-anchor
`HashSet`: a duplicate-free enumeration of the collected anchors. -/
def valid_anchor_enum (root : MonValue) (defined_order : List String) : Prop :=
  defined_order.Perm (collect_anchors root).dedup

instance (root : MonValue) (defined_order : List String) :
    Decidable (valid_anchor_enum root defined_order) := by
  unfold valid_anchor_enum
  infer_instance

/-- C2 counterexample: a document with two unused anchors `a` and `b`.
Both `["a", "b"]` and `["b", "a"]` are iteration orders of the same
defined-anchor set — the order is chosen by the hash seed, not by
(source, config) — and they yield different diagnostic lists, so two
invocations of the analysis on identical input need not produce identical
(identically ordered) diagnostic lists. -/
theorem unused_anchor_order_not_a_function_of_input :
    valid_anchor_enum
        (.mk none (.Object [.Pair "x" (.mk (some "a") .Null),
          .Pair "y" (.mk (some "b") .Null)])) ["a", "b"] ∧
      valid_anchor_enum
        (.mk none (.Object [.Pair "x" (.mk (some "a") .Null),
          .Pair "y" (.mk (some "b") .Null)])) ["b", "a"] ∧
      detect_unused_anchors ["a", "b"]
          (collect_aliases (.mk none (.Object [.Pair "x" (.mk (some "a") .Null),
            .Pair "y" (.mk (some "b") .Null)]))) ≠
        detect_unused_anchors ["b", "a"]
          (collect_aliases (.mk none (.Object [.Pair "x" (.mk (some "a") .Null),
            .Pair "y" (.mk (some "b") .Null)]))) :=
  ⟨by decide, by decide, by decide⟩

/-- C2 (amended): the analysis is a pure function of (source, config) up to
the order of the unused-anchor diagnostics — for any two valid iteration
orders of the defined-anchor set, the emitted diagnostic lists are
permutations of each other (same multiset, contents determined by the
source), but with two or more unused anchors the order itself is
hash-seed-dependent and may differ between invocations. -/
theorem unused_anchor_diagnostics_perm (root : MonValue)
    (order1 order2 used : List String)
    (h1 : valid_anchor_enum root order1) (h2 : valid_anchor_enum root order2) :
    (detect_unused_anchors order1 used).Perm
      (detect_unused_anchors order2 used) := by
  have hp : order1.Perm order2 := h1.trans h2.symm
  exact (hp.filter _).map _

/-- C2 witness: the two concrete iteration orders of the counterexample
document produce permuted diagnostic lists. -/
theorem unused_anchor_diagnostics_perm_witness :
    valid_anchor_enum
        (.mk none (.Object [.Pair "x" (.mk (some "a") .Null),
          .Pair "y" (.mk (some "b") .Null)])) ["a", "b"] ∧
      valid_anchor_enum
        (.mk none (.Object [.Pair "x" (.mk (some "a") .Null),
          .Pair "y" (.mk (some "b") .Null)])) ["b", "a"] ∧
      (detect_unused_anchors ["a", "b"] []).Perm
        (detect_unused_anchors ["b", "a"] []) :=
  ⟨by decide, by decide,
    unused_anchor_diagnostics_perm
      (.mk none (.Object [.Pair "x" (.mk (some "a") .Null),
        .Pair "y" (.mk (some "b") .Null)])) ["a", "b"] ["b", "a"] []
      (by decide) (by decide)⟩

/-! ## C4: src/formatter/advanced.rs `align_comment_at` totality -/

/-- C4: the claim (and the spec) says `align_comment_at` never errors.  At
`content = "abc"`, `comment = "// c"`, `column = 4` the content is one byte
short of the column, `padding = 1`, and the source evaluates
`" ".repeat(padding - 2)` — a `usize` underflow panic (modelled as `none`).
One column further (`column = 8`) the documented padding behaviour holds
and the comment starts at byte offset 8. -/
theorem align_comment_at_boundary_panic :
    align_comment_at "abc" "// c" 4 = none ∧
      align_comment_at "abc" "// c" 8 = some "abc     // c" := by
  constructor
  · rfl
  · rfl

end MON
